import Mathlib

/-!
Shallow embedding of the red-black-tree set implementation in `set.go`
(package `set`, repository nubmq/set).

The Go code stores nodes on the heap with `left`, `right` and `parent`
pointers.  We embed the heap reachable from `s.root` as an inductive tree,
and we embed a *pointer to a node* as a zipper: the subtree rooted at that
node together with the path of ancestors up to the root.  Each path entry
records exactly the information the Go code can read through the `parent`
pointer: which side the current node hangs off (`z == z.parent.left` tests),
the parent's color and key, and the sibling subtree.  Re-linking done through
`parent` pointers in the Go code (rotations, fixups) becomes reassembly of
the zipper.

Keys are instantiated at `Int` with the standard three-way integer
comparator (`cmp < 0` ↔ `key < k`, `cmp == 0` ↔ `key = k`), matching the
spec's concrete scenarios ("comparator = integer ordering").

Go nil-pointer dereferences (runtime panics) are modelled by `Option`
results (`none` = panic) or by the dedicated `DRes.crash` constructor;
no operation is silently totalised.
-/

namespace RB

/-- `type Color bool; Black; Red` from set.go (lines 4-10). -/
inductive Color where
  | red
  | black
deriving DecidableEq, Repr

/-- The key/color/child part of `type Node struct` (set.go lines 12-17);
the `parent` back-pointer is represented by `Path` below. -/
inductive Tree where
  | nil
  | node (c : Color) (l : Tree) (k : Int) (r : Tree)
deriving DecidableEq, Repr

/-- Which child slot of the parent a node occupies
(the Go tests `z == z.parent.left` / `z == z.parent.right`). -/
inductive Dir where
  | left
  | right
deriving DecidableEq, Repr

/-- The ancestor chain seen through `parent` pointers: for each ancestor,
the side the current node hangs off, the ancestor's color and key, and the
sibling subtree.  `root` means `parent == nil`. -/
inductive Path where
  | root
  | cons (d : Dir) (c : Color) (k : Int) (sib : Tree) (p : Path)
deriving DecidableEq, Repr

/-- Rebuild the parent node from a path entry and the child subtree. -/
def assemble : Dir → Color → Int → Tree → Tree → Tree
  | .left, c, k, sib, t => .node c t k sib
  | .right, c, k, sib, t => .node c sib k t

/-- Rebuild the whole tree from a zipper (follow all `parent` links up). -/
def plug : Path → Tree → Tree
  | .root, t => t
  | .cons d c k sib rest, t => plug rest (assemble d c k sib t)

/-- In-order key sequence of a subtree. -/
def inorder : Tree → List Int
  | .nil => []
  | .node _ l k r => inorder l ++ k :: inorder r

/-- Keys strictly to the left of the zipper hole, in order. -/
def leftL : Path → List Int
  | .root => []
  | .cons .left _ _ _ rest => leftL rest
  | .cons .right _ k sib rest => leftL rest ++ inorder sib ++ [k]

/-- Keys strictly to the right of the zipper hole, in order. -/
def rightL : Path → List Int
  | .root => []
  | .cons .left _ k sib rest => k :: inorder sib ++ rightL rest
  | .cons .right _ _ _ rest => rightL rest

/-- Color read through a possibly-nil pointer where the Go code guards with
`!= nil`; conceptual null leaves count as black. -/
def ColorOf : Tree → Color
  | .nil => .black
  | .node c _ _ _ => c

/-- The Go test `y != nil && y.color == Red`. -/
def isRedT : Tree → Bool
  | .node .red _ _ _ => true
  | _ => false

/-- The Go test `w == nil || w.color == Black`. -/
def isBlackT (t : Tree) : Bool := !(isRedT t)

/-- `z.color = Black` on a node known non-nil (identity on nil,
used only where the Go code writes through a non-nil pointer). -/
def blackenT : Tree → Tree
  | .nil => .nil
  | .node _ l k r => .node .black l k r

/-- `s.root.color = Black` (set.go line 284); the root is non-nil there. -/
def blackenRoot : Tree → Tree := blackenT

/-- No red node has a red child (red-red freedom), as a decidable check. -/
def okC : Tree → Bool
  | .nil => true
  | .node c l _ r =>
      okC l && okC r && (c == .black || (isBlackT l && isBlackT r))

/-- Contribution of a node's color to black height. -/
def cbw : Color → Nat
  | .red => 0
  | .black => 1

/-- Black height of a subtree, `none` when paths disagree. -/
def bh? : Tree → Option Nat
  | .nil => some 0
  | .node c l _ r =>
      match bh? l, bh? r with
      | some a, some b => if a = b then some (a + cbw c) else none
      | _, _ => none

/-- Black-height consistency of a path around a hole of black height `n`;
returns the black height of the whole tree when consistent. -/
def pbal : Path → Nat → Option Nat
  | .root, n => some n
  | .cons _ c _ sib rest, n =>
      match bh? sib with
      | some m => if m = n then pbal rest (n + cbw c) else none
      | none => none

/-- Red-red freedom of a path around a hole whose subtree has top color `c`:
every sibling is red-red free, and a red ancestor forces a black hole side
and a black sibling. -/
def okCPb : Path → Color → Bool
  | .root, _ => true
  | .cons _ pc _ sib rest, c =>
      okC sib && (pc == .black || (c == .black && isBlackT sib)) && okCPb rest pc

/-- The entry adjacent to the tree root (if any) is black. -/
def topBlack : Path → Bool
  | .root => true
  | .cons _ c _ _ .root => c == .black
  | .cons _ _ _ _ rest => topBlack rest

/-- `type Set struct { root; size; compare }` (set.go lines 19-24); the
comparator is fixed to integer ordering. -/
structure SetS where
  root : Tree
  size : Int
deriving DecidableEq, Repr

/-- `NewSet` (set.go lines 33-38): empty tree, size 0. -/
def newSetS : SetS := ⟨.nil, 0⟩

/-- `Size()` (set.go lines 40-43). -/
def sizeS (s : SetS) : Int := s.size

/-- `Clear()` (set.go lines 45-49). -/
def clearS (_s : SetS) : SetS := ⟨.nil, 0⟩

/-- `IsEmpty()` (set.go lines 51-54). -/
def isEmptyS (s : SetS) : Bool := s.size == 0

/-- The descent loop of `Contains` (set.go lines 100-113). -/
def containsGo : Tree → Int → Bool
  | .nil, _ => false
  | .node _ l k r, key =>
      if key = k then true
      else if key < k then containsGo l key
      else containsGo r key

/-- `Contains(key)` (set.go lines 99-113). -/
def containsS (s : SetS) (key : Int) : Bool := containsGo s.root key

/-- The descent loop of `Insert` (set.go lines 67-80): records the ancestor
chain; `none` means the comparator reported equality (duplicate). -/
def insDescend : Tree → Int → Path → Option Path
  | .nil, _, p => some p
  | .node c l k r, key, p =>
      if key = k then none
      else if key < k then insDescend l key (.cons .left c k r p)
      else insDescend r key (.cons .right c k l p)

/-- `insertFixup(z)` (set.go lines 248-285), expressed on the zipper of the
violating node `z` (always non-nil in the Go code).  Returns `none` exactly
where the Go code would dereference a nil pointer:
`z.parent.parent` when the parent is a red root (line 250/251), and
`leftRotate`/`rightRotate` applied when the promoted child is nil.
Each branch mirrors the corresponding Go lines; the rotations at lines
260/264/276/280 are carried out on the reassembled local subtrees, and the
trailing `s.root.color = Black` (line 284) is `blackenRoot` on every exit. -/
def insertFixupGo : Tree → Path → Option Tree
  | z, .root =>
      -- loop guard `z.parent != nil` fails; z is the root
      some (blackenRoot z)
  | z, .cons d .black pk sib rest =>
      -- loop guard `z.parent.color == Red` fails
      some (blackenRoot (plug rest (assemble d .black pk sib z)))
  | _, .cons _ .red _ _ .root =>
      -- parent is red and is the root: `z.parent.parent.left` dereferences nil
      none
  | z, .cons d .red pk sib (.cons .left _gc gk gsib grest) =>
      -- `z.parent == z.parent.parent.left` branch (lines 250-265)
      if isRedT gsib then
        -- uncle red (lines 252-256): recolor and continue from grandparent
        insertFixupGo (.node .red (assemble d .black pk sib z) gk (blackenT gsib)) grest
      else
        match d with
        | .left =>
            -- straight line (lines 262-264): recolor, rightRotate(grandparent)
            some (blackenRoot (plug grest
              (.node .black z pk (.node .red sib gk gsib))))
        | .right =>
            -- zig-zag (lines 258-260 then 262-264): leftRotate(parent) first
            match z with
            | .nil => none
            | .node _ zl zk zr =>
                some (blackenRoot (plug grest
                  (.node .black (.node .red sib pk zl) zk (.node .red zr gk gsib))))
  | z, .cons d .red pk sib (.cons .right _gc gk gsib grest) =>
      -- mirror branch (lines 266-281); uncle is the grandparent's left child
      if isRedT gsib then
        insertFixupGo (.node .red (blackenT gsib) gk (assemble d .black pk sib z)) grest
      else
        match d with
        | .right =>
            some (blackenRoot (plug grest
              (.node .black (.node .red gsib gk sib) pk z)))
        | .left =>
            match z with
            | .nil => none
            | .node _ zl zk zr =>
                some (blackenRoot (plug grest
                  (.node .black (.node .red gsib gk zl) zk (.node .red zr pk sib))))

/-- `Insert(key)` (set.go lines 56-97).  `none` models a runtime panic
inside `insertFixup`; otherwise `(inserted?, new set)`. -/
def insertS (s : SetS) (key : Int) : Option (Bool × SetS) :=
  match s.root with
  | .nil => some (true, ⟨.node .black .nil key .nil, s.size + 1⟩)
  | .node c l k r =>
      match insDescend (.node c l k r) key .root with
      | none => some (false, s)
      | some p =>
          match insertFixupGo (.node .red .nil key .nil) p with
          | none => none
          | some t => some (true, ⟨t, s.size + 1⟩)

/-- Result of the removal path: key absent, runtime panic, or the new tree. -/
inductive DRes where
  | notFound
  | crash
  | ok (t : Tree)
deriving DecidableEq, Repr

/-- `minimum(z.right)` inside `delete` via `successor` (set.go lines
301-303, 287-292), fused with the splice of `y` (lines 333-349): returns
`y`'s color and key, `x = y.right`, and the all-left ancestor entries from
the top of the searched subtree down to `y` (top entry first). -/
def splMin : Color → Tree → Int → Tree → Color × Int × Tree × List (Color × Int × Tree)
  | c, .nil, k, r => (c, k, r, [])
  | c, .node lc ll lk lr, k, r =>
      let q := splMin lc ll lk lr
      (q.1, q.2.1, q.2.2.1, (c, k, r) :: q.2.2.2)

/-- Re-nest the all-left ancestor entries produced by `splMin` (top entry
first) inside a base path. -/
def extendPath : List (Color × Int × Tree) → Path → Path
  | [], base => base
  | (c, k, sib) :: es, base => extendPath es (.cons .left c k sib base)

/-- `deleteFixup(x, parent)` (set.go lines 360-427) on the zipper of the
deficient position `x` (possibly nil).  `none` marks exactly the unguarded
nil dereferences of the Go code: reading `w.color` when the sibling `w` is
nil (lines 364/394), reading `w.left`/`w.right` when the post-case-1 sibling
is nil (lines 370/400), and rotating at `w` when its promoted child is nil
(lines 381/411).  Case 1 (red sibling) recolors, rotates at the parent and
falls through to the remaining cases within the same iteration, which the
equations below spell out; the final `if x != nil { x.color = Black }`
(lines 424-426) is applied on every exit. -/
def deleteFixupGo : Tree → Path → Option Tree
  | x, .root =>
      -- `x == s.root`: loop guard fails; blacken x if non-nil
      some (blackenT x)
  | .node .red xl xk xr, p =>
      -- `x.color == Black` fails: loop exits, then `x.color = Black`
      some (plug p (blackenT (.node .red xl xk xr)))
  | x, .cons .left pc pk w rest =>
      -- `x == parent.left`: sibling w = parent.right (lines 362-391)
      match w with
      | .nil => none
      | .node .red wl wk wr =>
          -- case 1 (lines 364-369): w black, parent red, leftRotate(parent);
          -- the new sibling is wl and the old w becomes the grandparent
          match wl with
          | .nil => none
          | .node _ wll wlk wlr =>
              if isBlackT wll && isBlackT wlr then
                -- case 2 (lines 370-374) after case 1: the new x is the old
                -- parent, now red, so the next iteration exits and blackens it
                some (plug (.cons .left .black wk wr rest)
                  (.node .black x pk (.node .red wll wlk wlr)))
              else if isBlackT wlr then
                -- case 3 (lines 376-382) then case 4 (lines 384-390)
                match wll with
                | .nil => none
                | .node _ wlll wllk wllr =>
                    some (blackenRoot (plug (.cons .left .black wk wr rest)
                      (.node .red (.node .black x pk wlll) wllk
                        (blackenT (.node .red wllr wlk wlr)))))
              else
                -- case 4 directly (lines 384-390)
                some (blackenRoot (plug (.cons .left .black wk wr rest)
                  (.node .red (.node .black x pk wll) wlk (blackenT wlr))))
      | .node .black wl wk wr =>
          if isBlackT wl && isBlackT wr then
            -- case 2 (lines 370-374): recolor w red, move up
            deleteFixupGo (.node pc x pk (.node .red wl wk wr)) rest
          else if isBlackT wr then
            -- case 3 (lines 376-382) then case 4 (lines 384-390)
            match wl with
            | .nil => none
            | .node _ wll wlk wlr =>
                some (blackenRoot (plug rest
                  (.node pc (.node .black x pk wll) wlk
                    (blackenT (.node .red wlr wk wr)))))
          else
            -- case 4 (lines 384-390): recolor, leftRotate(parent), exit at root
            some (blackenRoot (plug rest
              (.node pc (.node .black x pk wl) wk (blackenT wr))))
  | x, .cons .right pc pk w rest =>
      -- mirror branch: sibling w = parent.left (lines 392-421)
      match w with
      | .nil => none
      | .node .red wl wk wr =>
          -- case 1 mirrored (lines 394-399): rightRotate(parent), new sibling wr
          match wr with
          | .nil => none
          | .node _ wrl wrk wrr =>
              if isBlackT wrr && isBlackT wrl then
                some (plug (.cons .right .black wk wl rest)
                  (.node .black (.node .red wrl wrk wrr) pk x))
              else if isBlackT wrl then
                match wrr with
                | .nil => none
                | .node _ wrrl wrrk wrrr =>
                    some (blackenRoot (plug (.cons .right .black wk wl rest)
                      (.node .red (blackenT (.node .red wrl wrk wrrl)) wrrk
                        (.node .black wrrr pk x))))
              else
                some (blackenRoot (plug (.cons .right .black wk wl rest)
                  (.node .red (blackenT wrl) wrk (.node .black wrr pk x))))
      | .node .black wl wk wr =>
          if isBlackT wr && isBlackT wl then
            deleteFixupGo (.node pc (.node .red wl wk wr) pk x) rest
          else if isBlackT wl then
            match wr with
            | .nil => none
            | .node _ wrl wrk wrr =>
                some (blackenRoot (plug rest
                  (.node pc (blackenT (.node .red wl wk wrl)) wrk
                    (.node .black wrr pk x))))
          else
            some (blackenRoot (plug rest
              (.node pc (blackenT wl) wk (.node .black wr pk x))))

/-- The splice of `delete(z)` when `z` has at most one child (set.go lines
327-328, 333-357): `x` replaces `z`; fix up when `z` was black. -/
def finishDel (c : Color) (x : Tree) (p : Path) : DRes :=
  match c with
  | .black =>
      match deleteFixupGo x p with
      | none => .crash
      | some t => .ok t
  | .red => .ok (plug p x)

/-- `delete(z)` (set.go lines 325-358) for `z = node c l k r` at path `p`:
at most one child splices `z` itself; otherwise the in-order successor `y`
is spliced, its key copied into `z`'s position, and the fixup runs at
`x = y.right` under `y`'s former parent. -/
def delGo (c : Color) (l : Tree) (_k : Int) (r : Tree) (p : Path) : DRes :=
  match l, r with
  | .nil, _ => finishDel c r p
  | .node lc ll lk lr, .nil => finishDel c (.node lc ll lk lr) p
  | .node lc ll lk lr, .node rc rl rk rr =>
      match splMin rc rl rk rr with
      | (yc, yk, x, es) =>
          finishDel yc x (extendPath es (.cons .right c yk (.node lc ll lk lr) p))

/-- The descent loop of `Remove` (set.go lines 116-131). -/
def removeGo : Tree → Int → Path → DRes
  | .nil, _, _ => .notFound
  | .node c l k r, key, p =>
      if key = k then delGo c l k r p
      else if key < k then removeGo l key (.cons .left c k r p)
      else removeGo r key (.cons .right c k l p)

/-- `Remove(key)` (set.go lines 115-131); `none` models a runtime panic
inside `deleteFixup`. -/
def removeS (s : SetS) (key : Int) : Option (Bool × SetS) :=
  match removeGo s.root key .root with
  | .notFound => some (false, s)
  | .crash => none
  | .ok t => some (true, ⟨t, s.size - 1⟩)

/-- A non-nil node pointer as a zipper position: the node's fields plus the
ancestor chain (the `Iterator.node` field when non-nil). -/
structure Pos where
  c : Color
  l : Tree
  k : Int
  r : Tree
  p : Path
deriving DecidableEq, Repr

/-- The descent loop of `minimum(x)` (set.go lines 287-292) on a node known
non-nil, tracking the ancestor chain. -/
def minPos : Color → Tree → Int → Tree → Path → Pos
  | c, .nil, k, r, p => ⟨c, .nil, k, r, p⟩
  | c, .node lc ll lk lr, k, r, p => minPos lc ll lk lr (.cons .left c k r p)

/-- The descent loop of `maximum(x)` (set.go lines 294-299) on a node known
non-nil, tracking the ancestor chain. -/
def maxPos : Color → Tree → Int → Tree → Path → Pos
  | c, l, k, .nil, p => ⟨c, l, k, .nil, p⟩
  | c, l, k, .node rc rl rk rr, p => maxPos rc rl rk rr (.cons .right c k l p)

/-- `minimum(x)` (set.go lines 287-292) on an arbitrary pointer:
`x.left` on a nil `x` is a nil dereference, modelled by `none`. -/
def minimumGo : Tree → Path → Option Pos
  | .nil, _ => none
  | .node c l k r, p => some (minPos c l k r p)

/-- `maximum(x)` (set.go lines 294-299) on an arbitrary pointer. -/
def maximumGo : Tree → Path → Option Pos
  | .nil, _ => none
  | .node c l k r, p => some (maxPos c l k r p)

/-- The climbing loop of `successor` (set.go lines 305-310): walk up while
the current node is its parent's right child; `none` when the root is
passed (no successor). -/
def upRight : Tree → Path → Option Pos
  | x, .cons .right c k sib rest => upRight (.node c sib k x) rest
  | x, .cons .left c k sib rest => some ⟨c, x, k, sib, rest⟩
  | _, .root => none

/-- The climbing loop of `predecessor` (set.go lines 317-322). -/
def upLeft : Tree → Path → Option Pos
  | x, .cons .left c k sib rest => upLeft (.node c x k sib) rest
  | x, .cons .right c k sib rest => some ⟨c, sib, k, x, rest⟩
  | _, .root => none

/-- `successor(x)` (set.go lines 301-311) for a non-nil `x`. -/
def succGo (x : Pos) : Option Pos :=
  match x.r with
  | .node rc rl rk rr => some (minPos rc rl rk rr (.cons .right x.c x.k x.l x.p))
  | .nil => upRight (.node x.c x.l x.k .nil) x.p

/-- `predecessor(x)` (set.go lines 313-323) for a non-nil `x`. -/
def predGo (x : Pos) : Option Pos :=
  match x.l with
  | .node lc ll lk lr => some (maxPos lc ll lk lr (.cons .left x.c x.k x.r x.p))
  | .nil => upLeft (.node x.c .nil x.k x.r) x.p

/-- `type Iterator struct` (set.go lines 26-31): current node (or sentinel)
and the direction flag; the `set` back-pointer is passed explicitly to the
operations that read it. -/
structure IterS where
  pos : Option Pos
  reverse : Bool
deriving DecidableEq, Repr

/-- `Begin()` (set.go lines 133-142). -/
def beginS (s : SetS) : IterS :=
  match s.root with
  | .nil => ⟨none, false⟩
  | .node c l k r => ⟨some (minPos c l k r .root), false⟩

/-- `End()` (set.go lines 144-147). -/
def endS : IterS := ⟨none, false⟩

/-- `RBegin()` (set.go lines 149-159). -/
def rbeginS (s : SetS) : IterS :=
  match s.root with
  | .nil => ⟨none, true⟩
  | .node c l k r => ⟨some (maxPos c l k r .root), true⟩

/-- `REnd()` (set.go lines 161-164). -/
def rendS : IterS := ⟨none, true⟩

/-- `Value()` (set.go lines 167-172): nil sentinel yields the no-value
indicator. -/
def iterValue (it : IterS) : Option Int :=
  match it.pos with
  | none => none
  | some x => some x.k

/-- `Valid()` (set.go lines 174-176). -/
def iterValid (it : IterS) : Bool :=
  match it.pos with
  | none => false
  | some _ => true

/-- `Next()` (set.go lines 178-190). -/
def iterNext (it : IterS) : Bool × IterS :=
  match it.pos with
  | none => (false, it)
  | some x =>
      let q := if it.reverse then predGo x else succGo x
      (q.isSome, ⟨q, it.reverse⟩)

/-- `Prev()` (set.go lines 192-209).  On a sentinel it calls
`minimum(set.root)` / `maximum(set.root)`, which dereference nil when the
set is empty: `none` models that panic. -/
def iterPrevS (s : SetS) (it : IterS) : Option (Bool × IterS) :=
  match it.pos with
  | none =>
      match (if it.reverse then minimumGo s.root .root else maximumGo s.root .root) with
      | none => none
      | some x => some (true, ⟨some x, it.reverse⟩)
  | some x =>
      let q := if it.reverse then succGo x else predGo x
      some (q.isSome, ⟨q, it.reverse⟩)

/-- Collect keys by repeated `Value()`/`Next()` until invalid (fuel-bounded;
the claims instantiate the fuel above the set size). -/
def iterCollect : Nat → IterS → List Int
  | 0, _ => []
  | fuel + 1, it =>
      match it.pos with
      | none => []
      | some x => x.k :: iterCollect fuel (iterNext it).2

/-- Fold `Insert` left-to-right over a list of keys, propagating a fixup
panic. -/
def insertAllFrom : SetS → List Int → Option SetS
  | s, [] => some s
  | s, k :: ks =>
      match insertS s k with
      | none => none
      | some q => insertAllFrom q.2 ks

/-- Insert a list of keys in order into a fresh set. -/
def insertAllS (ks : List Int) : Option SetS := insertAllFrom newSetS ks

/-! ### Basic facts about colors, blackening and reassembly -/

theorem isBlackT_iff {t : Tree} : isBlackT t = true ↔ ColorOf t = .black := by
  cases t with
  | nil => simp [isBlackT, isRedT, ColorOf]
  | node c l k r => cases c <;> simp [isBlackT, isRedT, ColorOf]

theorem isRedT_iff {t : Tree} : isRedT t = true ↔ ColorOf t = .red := by
  cases t with
  | nil => simp [isRedT, ColorOf]
  | node c l k r => cases c <;> simp [isRedT, ColorOf]

theorem inorder_blackenT (t : Tree) : inorder (blackenT t) = inorder t := by
  cases t <;> rfl

theorem ColorOf_blackenT (t : Tree) : ColorOf (blackenT t) = .black := by
  cases t <;> rfl

theorem okC_blackenT {t : Tree} (h : okC t = true) : okC (blackenT t) = true := by
  cases t with
  | nil => rfl
  | node c l k r =>
      simp only [okC, Bool.and_eq_true] at h
      simp [blackenT, okC, h.1.1, h.1.2]

theorem blackenT_of_black {t : Tree} (h : ColorOf t = .black) : blackenT t = t := by
  cases t with
  | nil => rfl
  | node c l k r => simp [ColorOf] at h; simp [blackenT, h]

theorem bh?_blackenT_of_red {t : Tree} {n : Nat} (hc : ColorOf t = .red)
    (h : bh? t = some n) : bh? (blackenT t) = some (n + 1) := by
  cases t with
  | nil => simp [ColorOf] at hc
  | node c l k r =>
      simp [ColorOf] at hc
      subst hc
      cases hl : bh? l with
      | none => simp [bh?, hl] at h
      | some a =>
          cases hr : bh? r with
          | none => simp [bh?, hl, hr] at h
          | some b =>
              by_cases hab : a = b
              · subst hab
                simp [bh?, blackenT, hl, hr, cbw] at h ⊢
                omega
              · simp [bh?, hl, hr, hab] at h

theorem bh?_blackenT_isSome {t : Tree} {n : Nat} (h : bh? t = some n) :
    ∃ m, bh? (blackenT t) = some m ∧ (m = n ∨ m = n + 1) := by
  cases hc : ColorOf t with
  | red => exact ⟨n + 1, bh?_blackenT_of_red hc h, Or.inr rfl⟩
  | black => exact ⟨n, by rw [blackenT_of_black hc]; exact h, Or.inl rfl⟩

theorem inorder_assemble (d : Dir) (c : Color) (k : Int) (sib t : Tree) :
    inorder (assemble d c k sib t) =
      match d with
      | .left => inorder t ++ k :: inorder sib
      | .right => inorder sib ++ k :: inorder t := by
  cases d <;> rfl

theorem inorder_plug : ∀ (p : Path) (t : Tree),
    inorder (plug p t) = leftL p ++ inorder t ++ rightL p := by
  intro p
  induction p with
  | root => intro t; simp [plug, leftL, rightL]
  | cons d c k sib rest ih =>
      intro t
      cases d with
      | left =>
          simp [plug, assemble, ih, leftL, rightL, inorder]
      | right =>
          simp [plug, assemble, ih, leftL, rightL, inorder]

theorem bh?_plug : ∀ (p : Path) (t : Tree) (n rn : Nat),
    bh? t = some n → pbal p n = some rn → bh? (plug p t) = some rn := by
  intro p
  induction p with
  | root =>
      intro t n rn ht hp
      simp [pbal] at hp
      subst hp
      simpa [plug] using ht
  | cons d c k sib rest ih =>
      intro t n rn ht hp
      simp only [pbal] at hp
      revert hp
      cases hs : bh? sib with
      | none => intro hp; cases hp
      | some m =>
          intro hp
          by_cases hm : m = n
          · subst hm
            simp at hp
            cases d with
            | left =>
                refine ih _ _ _ ?_ hp
                simp [assemble, bh?, ht, hs]
            | right =>
                refine ih _ _ _ ?_ hp
                simp [assemble, bh?, ht, hs]
          · simp [hm] at hp

theorem okC_plug : ∀ (p : Path) (t : Tree),
    okC t = true → okCPb p (ColorOf t) = true → okC (plug p t) = true := by
  intro p
  induction p with
  | root => intro t h _; simpa [plug] using h
  | cons d c k sib rest ih =>
      intro t ht hp
      simp only [okCPb, Bool.and_eq_true] at hp
      obtain ⟨⟨hsib, hcol⟩, hrest⟩ := hp
      have hassem : okC (assemble d c k sib t) = true := by
        cases d with
        | left =>
            simp only [assemble, okC, Bool.and_eq_true]
            refine ⟨⟨ht, hsib⟩, ?_⟩
            rcases Bool.or_eq_true _ _ |>.mp hcol with h | h
            · simp [h]
            · simp only [Bool.and_eq_true, beq_iff_eq] at h
              simp [isBlackT_iff.mpr h.1, h.2]
        | right =>
            simp only [assemble, okC, Bool.and_eq_true]
            refine ⟨⟨hsib, ht⟩, ?_⟩
            rcases Bool.or_eq_true _ _ |>.mp hcol with h | h
            · simp [h]
            · simp only [Bool.and_eq_true, beq_iff_eq] at h
              simp [isBlackT_iff.mpr h.1, h.2]
      have hca : ColorOf (assemble d c k sib t) = c := by
        cases d <;> rfl
      exact ih _ hassem (by rw [hca]; exact hrest)

theorem ColorOf_plug : ∀ (p : Path) (t : Tree), p ≠ .root → topBlack p = true →
    ColorOf (plug p t) = .black := by
  intro p
  induction p with
  | root => intro t h _; cases h rfl
  | cons d c k sib rest ih =>
      intro t _ htop
      cases rest with
      | root =>
          simp only [topBlack, beq_iff_eq] at htop
          subst htop
          cases d <;> rfl
      | cons d2 c2 k2 sib2 rest2 =>
          exact ih _ (by simp) htop

/-! ### Claim C7: Next on a sentinel -/

/-- Claim C7: for every iterator whose current node is nil (End or REnd
sentinel, either direction), `Next()` returns false and leaves the iterator
in the same sentinel state. -/
theorem claim7_next_on_sentinel (it : IterS) (h : it.pos = none) :
    iterNext it = (false, it) := by
  simp [iterNext, h]

theorem claim7_witness : iterNext endS = (false, endS) :=
  claim7_next_on_sentinel endS rfl

/-! ### Claim C9: Value/Valid observability -/

/-- Claim C9: `Value()` yields the no-value indicator exactly at a sentinel
and the current key otherwise, and `Valid()` is true iff positioned. -/
theorem claim9_value_valid (it : IterS) :
    (iterValue it = none ↔ it.pos = none) ∧
    (∀ x : Pos, it.pos = some x → iterValue it = some x.k) ∧
    (iterValid it = true ↔ it.pos ≠ none) := by
  refine ⟨?_, ?_, ?_⟩
  · cases h : it.pos <;> simp [iterValue, h]
  · intro x hx; simp [iterValue, hx]
  · cases h : it.pos <;> simp [iterValid, h]

theorem claim9_witness :
    iterValue ⟨some ⟨.black, .nil, 7, .nil, .root⟩, false⟩ = some 7 :=
  (claim9_value_valid _).2.1 _ rfl

/-! ### Claim C2: exceptional control flow (Prev on an empty set panics) -/

/-- Claim C2 fails on the code: `Prev()` on the forward sentinel of the
empty set calls `maximum(nil)`, whose loop condition dereferences the nil
pointer; the model returns the panic marker `none` instead of a boolean. -/
theorem claim2_prev_on_empty_panics :
    iterPrevS newSetS endS = none ∧ iterPrevS newSetS rendS = none :=
  ⟨rfl, rfl⟩

/-! ### Normal forms for the invariant checkers -/

theorem bh?_node {c : Color} {l : Tree} {k : Int} {r : Tree} {m : Nat} :
    bh? (.node c l k r) = some m ↔
      ∃ a, bh? l = some a ∧ bh? r = some a ∧ m = a + cbw c := by
  constructor
  · intro h
    cases hl : bh? l with
    | none => simp [bh?, hl] at h
    | some a =>
        cases hr : bh? r with
        | none => simp [bh?, hl, hr] at h
        | some b =>
            by_cases hab : a = b
            · subst hab
              simp [bh?, hl, hr] at h
              exact ⟨a, rfl, rfl, h.symm⟩
            · simp [bh?, hl, hr, hab] at h
  · rintro ⟨a, hl, hr, hm⟩
    simp [bh?, hl, hr, hm]

theorem okC_node {c : Color} {l : Tree} {k : Int} {r : Tree} :
    okC (.node c l k r) = true ↔
      okC l = true ∧ okC r = true ∧
        (c = .red → isBlackT l = true ∧ isBlackT r = true) := by
  cases c with
  | red => simp [okC]; tauto
  | black => simp [okC]

theorem pbal_cons {d : Dir} {c : Color} {k : Int} {sib : Tree} {rest : Path}
    {n rn : Nat} :
    pbal (.cons d c k sib rest) n = some rn ↔
      bh? sib = some n ∧ pbal rest (n + cbw c) = some rn := by
  constructor
  · intro h
    cases hs : bh? sib with
    | none => simp [pbal, hs] at h
    | some m =>
        by_cases hm : m = n
        · subst hm
          simp [pbal, hs] at h
          exact ⟨rfl, h⟩
        · simp [pbal, hs, hm] at h
  · rintro ⟨hs, hp⟩
    simp [pbal, hs, hp]

theorem okCPb_cons {d : Dir} {pc : Color} {k : Int} {sib : Tree} {rest : Path}
    {c : Color} :
    okCPb (.cons d pc k sib rest) c = true ↔
      okC sib = true ∧ (pc = .red → c = .black ∧ isBlackT sib = true) ∧
        okCPb rest pc = true := by
  cases pc with
  | red => cases c <;> simp [okCPb] <;> tauto
  | black => simp [okCPb]

theorem okCPb_toBlack : ∀ (p : Path) (c : Color),
    okCPb p c = true → okCPb p .black = true := by
  intro p
  induction p with
  | root => intro c _; rfl
  | cons d pc k sib rest _ =>
      intro c h
      rw [okCPb_cons] at h ⊢
      exact ⟨h.1, fun hpc => ⟨rfl, (h.2.1 hpc).2⟩, h.2.2⟩

theorem topBlack_tail {d : Dir} {c : Color} {k : Int} {sib : Tree} {rest : Path}
    (h : topBlack (.cons d c k sib rest) = true) : topBlack rest = true := by
  cases rest with
  | root => rfl
  | cons d2 c2 k2 sib2 rest2 => exact h

theorem topBlack_cons_root {d : Dir} {c : Color} {k : Int} {sib : Tree}
    (h : topBlack (.cons d c k sib .root) = true) : c = .black := by
  simpa [topBlack] using h

theorem bh?_assemble {d : Dir} {c : Color} {k : Int} {sib t : Tree} {n : Nat}
    (hs : bh? sib = some n) (ht : bh? t = some n) :
    bh? (assemble d c k sib t) = some (n + cbw c) := by
  cases d <;> exact bh?_node.mpr ⟨n, by simp [assemble, hs, ht]⟩

theorem okC_assemble {d : Dir} {c : Color} {k : Int} {sib t : Tree}
    (hs : okC sib = true) (ht : okC t = true)
    (hc : c = .red → isBlackT sib = true ∧ isBlackT t = true) :
    okC (assemble d c k sib t) = true := by
  cases d with
  | left => exact okC_node.mpr ⟨ht, hs, fun h => ⟨(hc h).2, (hc h).1⟩⟩
  | right => exact okC_node.mpr ⟨hs, ht, fun h => ⟨(hc h).1, (hc h).2⟩⟩

theorem ColorOf_assemble (d : Dir) (c : Color) (k : Int) (sib t : Tree) :
    ColorOf (assemble d c k sib t) = c := by
  cases d <;> rfl

theorem isBlackT_of_okC_red {l : Tree} {k : Int} {r : Tree}
    (h : okC (.node .red l k r) = true) :
    isBlackT l = true ∧ isBlackT r = true :=
  (okC_node.mp h).2.2 rfl

/-- Length of an ancestor chain (for strong induction over fixup walks). -/
def lenP : Path → Nat
  | .root => 0
  | .cons _ _ _ _ rest => lenP rest + 1

/-! ### Insert fixup preserves the red-black invariants -/

theorem exit_pack {rest : Path} {S : Tree} {rn m : Nat}
    (hok : okC S = true) (hcol : ColorOf S = .black)
    (hbh : bh? S = some m) (hpb : pbal rest m = some rn)
    (hcp : okCPb rest .black = true) :
    ColorOf (blackenT (plug rest S)) = .black ∧
      okC (blackenT (plug rest S)) = true ∧
      ∃ m2, bh? (blackenT (plug rest S)) = some m2 := by
  have h1 := bh?_plug rest S m rn hbh hpb
  have h2 := okC_plug rest S hok (by rw [hcol]; exact hcp)
  obtain ⟨m2, hm2, _⟩ := bh?_blackenT_isSome h1
  exact ⟨ColorOf_blackenT _, okC_blackenT h2, m2, hm2⟩

theorem insertFixupGo_spec : ∀ (N : Nat) (p : Path), lenP p ≤ N →
    ∀ (z : Tree) (n rn : Nat),
    z ≠ .nil → ColorOf z = .red → okC z = true → bh? z = some n →
    pbal p n = some rn → okCPb p .black = true → topBlack p = true →
    ∃ t, insertFixupGo z p = some t ∧
      ColorOf t = .black ∧ okC t = true ∧ (∃ m, bh? t = some m) ∧
      inorder t = leftL p ++ inorder z ++ rightL p := by
  intro N
  induction N with
  | zero =>
      intro p hlen z n rn _hz _hcz hok hbh _hpb _hcp _htop
      cases p with
      | cons d pc pk sib rest => simp [lenP] at hlen
      | root =>
          obtain ⟨m, hm, _⟩ := bh?_blackenT_isSome hbh
          exact ⟨blackenT z, rfl, ColorOf_blackenT _, okC_blackenT hok, ⟨m, hm⟩,
            by simp [leftL, rightL, inorder_blackenT]⟩
  | succ N ih =>
      intro p hlen z n rn hz hcz hok hbh hpb hcp htop
      cases p with
      | root =>
          obtain ⟨m, hm, _⟩ := bh?_blackenT_isSome hbh
          exact ⟨blackenT z, rfl, ColorOf_blackenT _, okC_blackenT hok, ⟨m, hm⟩,
            by simp [leftL, rightL, inorder_blackenT]⟩
      | cons d pc pk sib rest =>
        cases pc with
        | black =>
            obtain ⟨hsibBh, hpbRest⟩ := pbal_cons.mp hpb
            obtain ⟨hsibOk, _, hcpRest⟩ := okCPb_cons.mp hcp
            have hbhA : bh? (assemble d .black pk sib z) = some (n + 1) := by
              simpa [cbw] using bh?_assemble (c := .black) (d := d) (k := pk) hsibBh hbh
            have hokA : okC (assemble d .black pk sib z) = true :=
              okC_assemble hsibOk hok (fun h => nomatch h)
            have hpbRest2 : pbal rest (n + 1) = some rn := by
              simpa [cbw] using hpbRest
            obtain ⟨hcolT, hokT, hbhT⟩ :=
              exit_pack hokA (ColorOf_assemble d .black pk sib z) hbhA hpbRest2 hcpRest
            refine ⟨blackenT (plug rest (assemble d .black pk sib z)), ?_, hcolT, hokT, hbhT, ?_⟩
            · simp [insertFixupGo, blackenRoot]
            · rw [inorder_blackenT, inorder_plug]
              cases d <;> simp [leftL, rightL, assemble, inorder]
        | red =>
          obtain ⟨hsibBh, hpbRest⟩ := pbal_cons.mp hpb
          simp only [cbw, Nat.add_zero] at hpbRest
          obtain ⟨hsibOk, himp, hcpRest⟩ := okCPb_cons.mp hcp
          have hsibB : isBlackT sib = true := (himp rfl).2
          cases rest with
          | root => simp [topBlack] at htop
          | cons gd gc gk gsib grest =>
            obtain ⟨hgsibBh, hpbG⟩ := pbal_cons.mp hpbRest
            obtain ⟨hgsibOk, himp2, hcpG⟩ := okCPb_cons.mp hcpRest
            have hgc : gc = .black := by
              cases gc with
              | red => exact absurd (himp2 rfl).1 (by simp)
              | black => rfl
            subst hgc
            simp only [cbw] at hpbG
            have hcpG2 : okCPb grest .black = true := hcpG
            have htopG : topBlack grest = true := topBlack_tail (topBlack_tail htop)
            have hlenG : lenP grest ≤ N := by simp [lenP] at hlen; omega
            cases gd with
            | left =>
              by_cases hred : isRedT gsib = true
              · -- Case B: red uncle, recolor and recurse from the grandparent
                have hbhA : bh? (assemble d .black pk sib z) = some (n + 1) := by
                  simpa [cbw] using bh?_assemble (c := .black) (d := d) (k := pk) hsibBh hbh
                have hokA : okC (assemble d .black pk sib z) = true :=
                  okC_assemble hsibOk hok (fun h => nomatch h)
                have hbhG : bh? (blackenT gsib) = some (n + 1) :=
                  bh?_blackenT_of_red (isRedT_iff.mp hred) hgsibBh
                have hokz2 : okC (.node .red (assemble d .black pk sib z) gk (blackenT gsib)) = true :=
                  okC_node.mpr ⟨hokA, okC_blackenT hgsibOk,
                    fun _ => ⟨isBlackT_iff.mpr (ColorOf_assemble d .black pk sib z),
                      isBlackT_iff.mpr (ColorOf_blackenT _)⟩⟩
                have hbhz2 : bh? (.node .red (assemble d .black pk sib z) gk (blackenT gsib))
                    = some (n + 1) :=
                  bh?_node.mpr ⟨n + 1, hbhA, hbhG, by simp [cbw]⟩
                obtain ⟨t, ht, hcolT, hokT, hbhT, hinT⟩ :=
                  ih grest hlenG (.node .red (assemble d .black pk sib z) gk (blackenT gsib))
                    (n + 1) rn (by simp) rfl hokz2 hbhz2 hpbG hcpG2 htopG
                refine ⟨t, ?_, hcolT, hokT, hbhT, ?_⟩
                · rw [show insertFixupGo z (.cons d .red pk sib (.cons .left .black gk gsib grest))
                      = insertFixupGo (.node .red (assemble d .black pk sib z) gk (blackenT gsib))
                          grest by simp [insertFixupGo, hred]]
                  exact ht
                · rw [hinT]
                  cases d <;> simp [leftL, rightL, assemble, inorder, inorder_blackenT]
              · -- Cases C/D: uncle black or absent
                have hred2 : isRedT gsib = false := by simpa using hred
                have hgsB : isBlackT gsib = true := by simp [isBlackT, hred2]
                cases d with
                | left =>
                  have hokS : okC (.node .black z pk (.node .red sib gk gsib)) = true :=
                    okC_node.mpr ⟨hok,
                      okC_node.mpr ⟨hsibOk, hgsibOk, fun _ => ⟨hsibB, hgsB⟩⟩,
                      fun h => nomatch h⟩
                  have hbhS : bh? (.node .black z pk (.node .red sib gk gsib)) = some (n + 1) :=
                    bh?_node.mpr ⟨n, hbh,
                      bh?_node.mpr ⟨n, hsibBh, hgsibBh, by simp [cbw]⟩, by simp [cbw]⟩
                  obtain ⟨hcolT, hokT, hbhT⟩ := exit_pack hokS rfl hbhS hpbG hcpG2
                  refine ⟨_, by simp [insertFixupGo, hred2, blackenRoot], hcolT, hokT, hbhT, ?_⟩
                  rw [inorder_blackenT, inorder_plug]
                  simp [leftL, rightL, inorder]
                | right =>
                  cases z with
                  | nil => exact absurd rfl hz
                  | node zc zl zk zr =>
                    simp only [ColorOf] at hcz
                    subst hcz
                    obtain ⟨hokzl, hokzr, himp3⟩ := okC_node.mp hok
                    obtain ⟨hzlB, hzrB⟩ := himp3 rfl
                    obtain ⟨a, hbzl, hbzr, hna⟩ := bh?_node.mp hbh
                    simp only [cbw, Nat.add_zero] at hna
                    subst hna
                    have hokS : okC (.node .black (.node .red sib pk zl) zk
                        (.node .red zr gk gsib)) = true :=
                      okC_node.mpr ⟨okC_node.mpr ⟨hsibOk, hokzl, fun _ => ⟨hsibB, hzlB⟩⟩,
                        okC_node.mpr ⟨hokzr, hgsibOk, fun _ => ⟨hzrB, hgsB⟩⟩,
                        fun h => nomatch h⟩
                    have hbhS : bh? (.node .black (.node .red sib pk zl) zk
                        (.node .red zr gk gsib)) = some (n + 1) :=
                      bh?_node.mpr ⟨n, bh?_node.mpr ⟨n, hsibBh, hbzl, by simp [cbw]⟩,
                        bh?_node.mpr ⟨n, hbzr, hgsibBh, by simp [cbw]⟩, by simp [cbw]⟩
                    obtain ⟨hcolT, hokT, hbhT⟩ := exit_pack hokS rfl hbhS hpbG hcpG2
                    refine ⟨_, by simp [insertFixupGo, hred2, blackenRoot], hcolT, hokT, hbhT, ?_⟩
                    rw [inorder_blackenT, inorder_plug]
                    simp [leftL, rightL, inorder]
            | right =>
              by_cases hred : isRedT gsib = true
              · have hbhA : bh? (assemble d .black pk sib z) = some (n + 1) := by
                  simpa [cbw] using bh?_assemble (c := .black) (d := d) (k := pk) hsibBh hbh
                have hokA : okC (assemble d .black pk sib z) = true :=
                  okC_assemble hsibOk hok (fun h => nomatch h)
                have hbhG : bh? (blackenT gsib) = some (n + 1) :=
                  bh?_blackenT_of_red (isRedT_iff.mp hred) hgsibBh
                have hokz2 : okC (.node .red (blackenT gsib) gk (assemble d .black pk sib z)) = true :=
                  okC_node.mpr ⟨okC_blackenT hgsibOk, hokA,
                    fun _ => ⟨isBlackT_iff.mpr (ColorOf_blackenT _),
                      isBlackT_iff.mpr (ColorOf_assemble d .black pk sib z)⟩⟩
                have hbhz2 : bh? (.node .red (blackenT gsib) gk (assemble d .black pk sib z))
                    = some (n + 1) :=
                  bh?_node.mpr ⟨n + 1, hbhG, hbhA, by simp [cbw]⟩
                obtain ⟨t, ht, hcolT, hokT, hbhT, hinT⟩ :=
                  ih grest hlenG (.node .red (blackenT gsib) gk (assemble d .black pk sib z))
                    (n + 1) rn (by simp) rfl hokz2 hbhz2 hpbG hcpG2 htopG
                refine ⟨t, ?_, hcolT, hokT, hbhT, ?_⟩
                · rw [show insertFixupGo z (.cons d .red pk sib (.cons .right .black gk gsib grest))
                      = insertFixupGo (.node .red (blackenT gsib) gk (assemble d .black pk sib z))
                          grest by simp [insertFixupGo, hred]]
                  exact ht
                · rw [hinT]
                  cases d <;> simp [leftL, rightL, assemble, inorder, inorder_blackenT]
              · have hred2 : isRedT gsib = false := by simpa using hred
                have hgsB : isBlackT gsib = true := by simp [isBlackT, hred2]
                cases d with
                | right =>
                  have hokS : okC (.node .black (.node .red gsib gk sib) pk z) = true :=
                    okC_node.mpr ⟨okC_node.mpr ⟨hgsibOk, hsibOk, fun _ => ⟨hgsB, hsibB⟩⟩,
                      hok, fun h => nomatch h⟩
                  have hbhS : bh? (.node .black (.node .red gsib gk sib) pk z) = some (n + 1) :=
                    bh?_node.mpr ⟨n, bh?_node.mpr ⟨n, hgsibBh, hsibBh, by simp [cbw]⟩,
                      hbh, by simp [cbw]⟩
                  obtain ⟨hcolT, hokT, hbhT⟩ := exit_pack hokS rfl hbhS hpbG hcpG2
                  refine ⟨_, by simp [insertFixupGo, hred2, blackenRoot], hcolT, hokT, hbhT, ?_⟩
                  rw [inorder_blackenT, inorder_plug]
                  simp [leftL, rightL, inorder]
                | left =>
                  cases z with
                  | nil => exact absurd rfl hz
                  | node zc zl zk zr =>
                    simp only [ColorOf] at hcz
                    subst hcz
                    obtain ⟨hokzl, hokzr, himp3⟩ := okC_node.mp hok
                    obtain ⟨hzlB, hzrB⟩ := himp3 rfl
                    obtain ⟨a, hbzl, hbzr, hna⟩ := bh?_node.mp hbh
                    simp only [cbw, Nat.add_zero] at hna
                    subst hna
                    have hokS : okC (.node .black (.node .red gsib gk zl) zk
                        (.node .red zr pk sib)) = true :=
                      okC_node.mpr ⟨okC_node.mpr ⟨hgsibOk, hokzl, fun _ => ⟨hgsB, hzlB⟩⟩,
                        okC_node.mpr ⟨hokzr, hsibOk, fun _ => ⟨hzrB, hsibB⟩⟩,
                        fun h => nomatch h⟩
                    have hbhS : bh? (.node .black (.node .red gsib gk zl) zk
                        (.node .red zr pk sib)) = some (n + 1) :=
                      bh?_node.mpr ⟨n, bh?_node.mpr ⟨n, hgsibBh, hbzl, by simp [cbw]⟩,
                        bh?_node.mpr ⟨n, hbzr, hsibBh, by simp [cbw]⟩, by simp [cbw]⟩
                    obtain ⟨hcolT, hokT, hbhT⟩ := exit_pack hokS rfl hbhS hpbG hcpG2
                    refine ⟨_, by simp [insertFixupGo, hred2, blackenRoot], hcolT, hokT, hbhT, ?_⟩
                    rw [inorder_blackenT, inorder_plug]
                    simp [leftL, rightL, inorder]

/-! ### Search descent: contains, duplicate detection, path facts -/

/-- The four red-black invariants of the spec, over the embedded tree:
black root, no red-red edge, uniform black count on root-to-leaf paths, and
strictly increasing in-order key sequence. -/
def RBInv (t : Tree) : Prop :=
  ColorOf t = .black ∧ okC t = true ∧ (∃ n, bh? t = some n) ∧
    List.Sorted (· < ·) (inorder t)

theorem sorted_node {c : Color} {l : Tree} {k : Int} {r : Tree}
    (hs : List.Sorted (· < ·) (inorder (Tree.node c l k r))) :
    List.Sorted (· < ·) (inorder l) ∧ List.Sorted (· < ·) (inorder r) ∧
      (∀ a ∈ inorder l, a < k) ∧ (∀ a ∈ inorder r, k < a) := by
  simp only [inorder, List.Sorted, List.pairwise_append, List.pairwise_cons] at hs
  refine ⟨hs.1, hs.2.1.2, fun a ha => hs.2.2 a ha k (by simp), hs.2.1.1⟩

theorem sorted_insert_middle {L R : List Int} {key : Int}
    (hs : List.Sorted (· < ·) (L ++ R))
    (hl : ∀ a ∈ L, a < key) (hr : ∀ a ∈ R, key < a) :
    List.Sorted (· < ·) (L ++ key :: R) := by
  rw [List.Sorted, List.pairwise_append] at hs ⊢
  refine ⟨hs.1, ?_, ?_⟩
  · rw [List.pairwise_cons]
    exact ⟨hr, hs.2.1⟩
  · intro x hx y hy
    rcases List.mem_cons.mp hy with h | h
    · exact h ▸ hl x hx
    · exact hs.2.2 x hx y h

theorem containsGo_iff : ∀ (t : Tree) (key : Int),
    List.Sorted (· < ·) (inorder t) →
    (containsGo t key = true ↔ key ∈ inorder t) := by
  intro t
  induction t with
  | nil => intro key _; simp [containsGo, inorder]
  | node c l k r ihl ihr =>
      intro key hs
      obtain ⟨hsl, hsr, hbl, hbr⟩ := sorted_node hs
      by_cases hk : key = k
      · subst hk
        simp [containsGo, inorder]
      · by_cases hlt : key < k
        · rw [show containsGo (.node c l k r) key = containsGo l key by
            simp [containsGo, hk, hlt]]
          rw [ihl key hsl]
          simp only [inorder, List.mem_append, List.mem_cons]
          constructor
          · exact fun h => Or.inl h
          · rintro (h | h | h)
            · exact h
            · exact absurd h hk
            · exact absurd (hbr key h) (by omega)
        · have hgt : k < key := by omega
          rw [show containsGo (.node c l k r) key = containsGo r key by
            simp [containsGo, hk, hlt]]
          rw [ihr key hsr]
          simp only [inorder, List.mem_append, List.mem_cons]
          constructor
          · exact fun h => Or.inr (Or.inr h)
          · rintro (h | h | h)
            · exact absurd (hbl key h) (by omega)
            · exact absurd h hk
            · exact h

theorem insDescend_none_iff : ∀ (t : Tree) (key : Int) (p : Path),
    (insDescend t key p = none ↔ containsGo t key = true) := by
  intro t
  induction t with
  | nil => intro key p; simp [insDescend, containsGo]
  | node c l k r ihl ihr =>
      intro key p
      by_cases hk : key = k
      · simp [insDescend, containsGo, hk]
      · by_cases hlt : key < k
        · simp [insDescend, containsGo, hk, hlt, ihl]
        · simp [insDescend, containsGo, hk, hlt, ihr]

/-- Root-blackness bookkeeping along a descent: at the root position it is
the root color, below it is the recorded top entry. -/
def topsOK : Path → Tree → Prop
  | .root, t => ColorOf t = .black
  | .cons d c k sib rest, _ => topBlack (.cons d c k sib rest) = true

theorem topsOK_step {p : Path} {c : Color} {l : Tree} {k : Int} {r : Tree}
    (h : topsOK p (.node c l k r)) (d : Dir) (k2 : Int) (sib : Tree) :
    topBlack (.cons d c k2 sib p) = true := by
  cases p with
  | root =>
      simp only [topsOK, ColorOf] at h
      simp [topBlack, h]
  | cons d3 c3 k3 sib3 rest3 => exact h

theorem insDescend_some_spec : ∀ (t : Tree) (key : Int) (p : Path) (n rn : Nat) (p2 : Path),
    okC t = true → bh? t = some n → pbal p n = some rn →
    okCPb p (ColorOf t) = true → topsOK p t →
    List.Sorted (· < ·) (inorder t) →
    (∀ a ∈ leftL p, a < key) → (∀ a ∈ rightL p, key < a) →
    insDescend t key p = some p2 →
    pbal p2 0 = some rn ∧ okCPb p2 .black = true ∧ topBlack p2 = true ∧
      leftL p2 ++ rightL p2 = leftL p ++ inorder t ++ rightL p ∧
      (∀ a ∈ leftL p2, a < key) ∧ (∀ a ∈ rightL p2, key < a) := by
  intro t
  induction t with
  | nil =>
      intro key p n rn p2 _ hbh hpb hcp htop _ hbl hbr hd
      simp only [insDescend, Option.some.injEq] at hd
      subst hd
      simp only [bh?, Option.some.injEq] at hbh
      subst hbh
      refine ⟨hpb, hcp, ?_, by simp [inorder], hbl, hbr⟩
      cases p with
      | root => rfl
      | cons d c k sib rest => exact htop
  | node c l k r ihl ihr =>
      intro key p n rn p2 hok hbh hpb hcp htop hs hbl hbr hd
      obtain ⟨hokl, hokr, himp⟩ := okC_node.mp hok
      obtain ⟨a, hbhl, hbhr, hna⟩ := bh?_node.mp hbh
      subst hna
      obtain ⟨hsl, hsr, hll, hrr⟩ := sorted_node hs
      by_cases hk : key = k
      · simp [insDescend, hk] at hd
      · by_cases hlt : key < k
        · rw [show insDescend (.node c l k r) key p =
              insDescend l key (.cons .left c k r p) by simp [insDescend, hk, hlt]] at hd
          have hres := ihl key (.cons .left c k r p) a rn p2 hokl hbhl
            (pbal_cons.mpr ⟨hbhr, hpb⟩)
            (okCPb_cons.mpr ⟨hokr, fun hc => ⟨isBlackT_iff.mp (himp hc).1, (himp hc).2⟩, hcp⟩)
            (topsOK_step htop .left k r) hsl hbl
            (by
              intro x hx
              simp only [rightL] at hx
              rcases List.mem_cons.mp hx with h | h
              · omega
              · rcases List.mem_append.mp h with h2 | h2
                · exact lt_trans hlt (hrr x h2)
                · exact hbr x h2)
            hd
          refine ⟨hres.1, hres.2.1, hres.2.2.1, ?_, hres.2.2.2.2⟩
          rw [hres.2.2.2.1]
          simp [leftL, rightL, inorder]
        · have hgt : k < key := by omega
          rw [show insDescend (.node c l k r) key p =
              insDescend r key (.cons .right c k l p) by simp [insDescend, hk, hlt]] at hd
          have hres := ihr key (.cons .right c k l p) a rn p2 hokr hbhr
            (pbal_cons.mpr ⟨hbhl, hpb⟩)
            (okCPb_cons.mpr ⟨hokl, fun hc => ⟨isBlackT_iff.mp (himp hc).2, (himp hc).1⟩, hcp⟩)
            (topsOK_step htop .right k l) hsr
            (by
              intro x hx
              simp only [leftL] at hx
              rcases List.mem_append.mp hx with h | h
              · rcases List.mem_append.mp h with h2 | h2
                · exact hbl x h2
                · exact lt_trans (hll x h2) hgt
              · rw [List.mem_singleton] at h
                omega)
            hbr
            hd
          refine ⟨hres.1, hres.2.1, hres.2.2.1, ?_, hres.2.2.2.2⟩
          rw [hres.2.2.2.1]
          simp [leftL, rightL, inorder]

/-! ### Insert: full functional specification -/

theorem insertS_spec (s : SetS) (key : Int) (h : RBInv s.root) :
    (containsGo s.root key = true → insertS s key = some (false, s)) ∧
    (containsGo s.root key = false → ∃ t,
      insertS s key = some (true, ⟨t, s.size + 1⟩) ∧ RBInv t ∧
      List.Perm (inorder t) (key :: inorder s.root)) := by
  obtain ⟨hroot, hok, ⟨n, hbh⟩, hs⟩ := h
  cases hr : s.root with
  | nil =>
      constructor
      · intro hc
        simp [containsGo] at hc
      · intro _
        refine ⟨.node .black .nil key .nil, by simp [insertS, hr], ⟨rfl, rfl, ⟨1, rfl⟩, ?_⟩, ?_⟩
        · simp [inorder]
        · simp [inorder, hr]
  | node c l k r =>
      rw [hr] at hroot hok hbh hs
      constructor
      · intro hc
        have hd : insDescend (.node c l k r) key .root = none :=
          (insDescend_none_iff _ _ _).mpr hc
        simp [insertS, hr, hd]
      · intro hc
        have hd : insDescend (.node c l k r) key .root ≠ none := by
          intro hno
          rw [insDescend_none_iff] at hno
          rw [hno] at hc
          cases hc
        obtain ⟨p2, hp2⟩ : ∃ p2, insDescend (.node c l k r) key .root = some p2 := by
          cases hq : insDescend (.node c l k r) key .root with
          | none => exact absurd hq hd
          | some p2 => exact ⟨p2, rfl⟩
        obtain ⟨hpb2, hcp2, htop2, hLR, hbl2, hbr2⟩ :=
          insDescend_some_spec (.node c l k r) key .root n n p2 hok hbh rfl
            (by rw [hroot]; rfl) hroot hs (by simp [leftL]) (by simp [rightL]) hp2
        obtain ⟨t, ht, hcolT, hokT, hbhT, hinT⟩ :=
          insertFixupGo_spec (lenP p2) p2 le_rfl (.node .red .nil key .nil) 0 n
            (by simp) rfl rfl rfl hpb2 hcp2 htop2
        have hLR2 : leftL p2 ++ rightL p2 = inorder (.node c l k r) := by
          simpa [leftL, rightL] using hLR
        have hin2 : inorder t = leftL p2 ++ key :: rightL p2 := by
          simpa [inorder] using hinT
        refine ⟨t, by simp [insertS, hr, hp2, ht], ⟨hcolT, hokT, hbhT, ?_⟩, ?_⟩
        · rw [hin2]
          exact sorted_insert_middle (by rw [hLR2]; exact hs) hbl2 hbr2
        · rw [hin2]
          have hmid : List.Perm (leftL p2 ++ key :: rightL p2)
              (key :: (leftL p2 ++ rightL p2)) := List.perm_middle
          rw [hLR2] at hmid
          exact hmid

/-! ### Claim C3: Insert postcondition -/

/-- Claim C3: on a set satisfying the red-black invariants, if no equal key
is present `Insert` returns true, increments the size by one and makes
`Contains` true; if an equal key is present it returns false and performs
no mutation at all. -/
theorem claim3_insert_postcondition (s : SetS) (key : Int) (h : RBInv s.root) :
    (containsGo s.root key = false → ∃ s2, insertS s key = some (true, s2) ∧
      s2.size = s.size + 1 ∧ containsGo s2.root key = true) ∧
    (containsGo s.root key = true → insertS s key = some (false, s)) := by
  have hspec := insertS_spec s key h
  constructor
  · intro hc
    obtain ⟨t, ht, hinv, hperm⟩ := hspec.2 hc
    refine ⟨⟨t, s.size + 1⟩, ht, rfl, ?_⟩
    rw [containsGo_iff t key hinv.2.2.2]
    exact hperm.mem_iff.mpr (List.mem_cons_self key _)
  · exact hspec.1

theorem claim3_witness : ∃ s2, insertS newSetS 1 = some (true, s2) ∧
    s2.size = newSetS.size + 1 ∧ containsGo s2.root 1 = true :=
  (claim3_insert_postcondition newSetS 1 ⟨rfl, rfl, ⟨0, rfl⟩, List.sorted_nil⟩).1 rfl

/-! ### Delete fixup: loop-body view and preservation -/

/-- The body of the `deleteFixup` loop for a non-root, black-or-nil `x`
(the two `.cons` arms of `deleteFixupGo`, verbatim). -/
def dfStep (x : Tree) : Dir → Color → Int → Tree → Path → Option Tree
  | .left, pc, pk, w, rest =>
      match w with
      | .nil => none
      | .node .red wl wk wr =>
          match wl with
          | .nil => none
          | .node _ wll wlk wlr =>
              if isBlackT wll && isBlackT wlr then
                some (plug (.cons .left .black wk wr rest)
                  (.node .black x pk (.node .red wll wlk wlr)))
              else if isBlackT wlr then
                match wll with
                | .nil => none
                | .node _ wlll wllk wllr =>
                    some (blackenRoot (plug (.cons .left .black wk wr rest)
                      (.node .red (.node .black x pk wlll) wllk
                        (blackenT (.node .red wllr wlk wlr)))))
              else
                some (blackenRoot (plug (.cons .left .black wk wr rest)
                  (.node .red (.node .black x pk wll) wlk (blackenT wlr))))
      | .node .black wl wk wr =>
          if isBlackT wl && isBlackT wr then
            deleteFixupGo (.node pc x pk (.node .red wl wk wr)) rest
          else if isBlackT wr then
            match wl with
            | .nil => none
            | .node _ wll wlk wlr =>
                some (blackenRoot (plug rest
                  (.node pc (.node .black x pk wll) wlk
                    (blackenT (.node .red wlr wk wr)))))
          else
            some (blackenRoot (plug rest
              (.node pc (.node .black x pk wl) wk (blackenT wr))))
  | .right, pc, pk, w, rest =>
      match w with
      | .nil => none
      | .node .red wl wk wr =>
          match wr with
          | .nil => none
          | .node _ wrl wrk wrr =>
              if isBlackT wrr && isBlackT wrl then
                some (plug (.cons .right .black wk wl rest)
                  (.node .black (.node .red wrl wrk wrr) pk x))
              else if isBlackT wrl then
                match wrr with
                | .nil => none
                | .node _ wrrl wrrk wrrr =>
                    some (blackenRoot (plug (.cons .right .black wk wl rest)
                      (.node .red (blackenT (.node .red wrl wrk wrrl)) wrrk
                        (.node .black wrrr pk x))))
              else
                some (blackenRoot (plug (.cons .right .black wk wl rest)
                  (.node .red (blackenT wrl) wrk (.node .black wrr pk x))))
      | .node .black wl wk wr =>
          if isBlackT wr && isBlackT wl then
            deleteFixupGo (.node pc (.node .red wl wk wr) pk x) rest
          else if isBlackT wl then
            match wr with
            | .nil => none
            | .node _ wrl wrk wrr =>
                some (blackenRoot (plug rest
                  (.node pc (blackenT (.node .red wl wk wrl)) wrk
                    (.node .black wrr pk x))))
          else
            some (blackenRoot (plug rest
              (.node pc (blackenT wl) wk (.node .black wr pk x))))

theorem deleteFixupGo_eq_dfStep {x : Tree} (hx : isRedT x = false)
    (d : Dir) (pc : Color) (pk : Int) (w : Tree) (rest : Path) :
    deleteFixupGo x (.cons d pc pk w rest) = dfStep x d pc pk w rest := by
  cases x with
  | nil => cases d <;> rfl
  | node xc xl xk xr =>
      cases xc with
      | red => simp [isRedT] at hx
      | black => cases d <;> rfl

theorem exit_pack2 {rest : Path} {S : Tree} {rn m : Nat}
    (hok : okC S = true) (hbh : bh? S = some m) (hpb : pbal rest m = some rn)
    (hcp : okCPb rest (ColorOf S) = true) :
    ColorOf (blackenT (plug rest S)) = .black ∧
      okC (blackenT (plug rest S)) = true ∧
      ∃ m2, bh? (blackenT (plug rest S)) = some m2 := by
  have h1 := bh?_plug rest S m rn hbh hpb
  have h2 := okC_plug rest S hok hcp
  obtain ⟨m2, hm2, _⟩ := bh?_blackenT_isSome h1
  exact ⟨ColorOf_blackenT _, okC_blackenT h2, m2, hm2⟩

theorem topBlack_cons_black {d : Dir} {k : Int} {sib : Tree} {rest : Path}
    (h : topBlack rest = true) : topBlack (Path.cons d .black k sib rest) = true := by
  cases rest with
  | root => rfl
  | cons d2 c2 k2 sib2 rest2 => exact h

theorem okC_of_blackenT {x : Tree} (h : okC (blackenT x) = true)
    (hx : isRedT x = false) : okC x = true := by
  cases x with
  | nil => rfl
  | node xc xl xk xr =>
      cases xc with
      | red => simp [isRedT] at hx
      | black => exact h

theorem bh?_nil_eq {n : Nat} (h : bh? Tree.nil = some n) : n = 0 := by
  simp [bh?] at h
  omega

theorem red_node_of_isRedT {t : Tree} (h : isRedT t = true) :
    ∃ l k r, t = Tree.node .red l k r := by
  cases t with
  | nil => simp [isRedT] at h
  | node c l k r =>
      cases c with
      | red => exact ⟨l, k, r, rfl⟩
      | black => simp [isRedT] at h

theorem ColorOf_eq_black_of_isBlackT {t : Tree} (h : isBlackT t = true) :
    ColorOf t = .black := isBlackT_iff.mp h

theorem deleteFixupGo_spec : ∀ (N : Nat) (p : Path), lenP p ≤ N →
    ∀ (x : Tree) (n rn : Nat),
    okC (blackenT x) = true → bh? x = some n →
    pbal p (n + 1) = some rn → okCPb p .black = true → topBlack p = true →
    ∃ t, deleteFixupGo x p = some t ∧
      ColorOf t = .black ∧ okC t = true ∧ (∃ m, bh? t = some m) ∧
      inorder t = leftL p ++ inorder x ++ rightL p := by
  intro N
  induction N with
  | zero =>
      intro p hlen x n rn hokb hbh _hpb _hcp _htop
      cases p with
      | cons d pc pk w rest => simp [lenP] at hlen
      | root =>
          obtain ⟨m, hm, _⟩ := bh?_blackenT_isSome hbh
          exact ⟨blackenT x, by simp [deleteFixupGo], ColorOf_blackenT _, hokb, ⟨m, hm⟩,
            by simp [leftL, rightL, inorder_blackenT]⟩
  | succ N ih =>
      intro p hlen x n rn hokb hbh hpb hcp htop
      cases p with
      | root =>
          obtain ⟨m, hm, _⟩ := bh?_blackenT_isSome hbh
          exact ⟨blackenT x, by simp [deleteFixupGo], ColorOf_blackenT _, hokb, ⟨m, hm⟩,
            by simp [leftL, rightL, inorder_blackenT]⟩
      | cons d pc pk w rest =>
        by_cases hxr : isRedT x = true
        · -- loop guard `x.color == Black` fails: exit and blacken x in place
          obtain ⟨xl, xk, xr, rfl⟩ := red_node_of_isRedT hxr
          have hbhb : bh? (blackenT (.node .red xl xk xr)) = some (n + 1) :=
            bh?_blackenT_of_red rfl hbh
          refine ⟨plug (.cons d pc pk w rest) (blackenT (.node .red xl xk xr)),
            by cases d <;> rfl, ?_, ?_, ?_, ?_⟩
          · exact ColorOf_plug _ _ (by simp) htop
          · exact okC_plug _ _ hokb (by rw [ColorOf_blackenT]; exact hcp)
          · exact ⟨rn, bh?_plug _ _ _ _ hbhb hpb⟩
          · rw [inorder_plug, inorder_blackenT]
        · have hxr2 : isRedT x = false := by simpa using hxr
          have hokx : okC x = true := okC_of_blackenT hokb hxr2
          rw [deleteFixupGo_eq_dfStep hxr2]
          obtain ⟨hwbh, hpbRest⟩ := pbal_cons.mp hpb
          obtain ⟨hwok, himpw, hcpRest⟩ := okCPb_cons.mp hcp
          have htopRest : topBlack rest = true := topBlack_tail htop
          have hlenRest : lenP rest ≤ N := by simp [lenP] at hlen; omega
          cases d with
          | left =>
            cases w with
            | nil => exact absurd (bh?_nil_eq hwbh) (by omega)
            | node wc wl wk wr =>
              cases wc with
              | red =>
                have hpc : pc = .black := by
                  cases pc with
                  | black => rfl
                  | red =>
                      have := (himpw rfl).2
                      simp [isBlackT, isRedT] at this
                subst hpc
                obtain ⟨hwl_ok, hwr_ok, himp2⟩ := okC_node.mp hwok
                obtain ⟨hwlB, hwrB⟩ := himp2 rfl
                obtain ⟨b, hbwl, hbwr, hb⟩ := bh?_node.mp hwbh
                simp [cbw] at hb
                have hbe : b = n + 1 := by omega
                subst hbe
                cases wl with
                | nil => exact absurd (bh?_nil_eq hbwl) (by omega)
                | node wlc wll wlk wlr =>
                  have hwlc : wlc = .black := by
                    have := isBlackT_iff.mp hwlB
                    simpa [ColorOf] using this
                  subst hwlc
                  obtain ⟨hwll_ok, hwlr_ok, _⟩ := okC_node.mp hwl_ok
                  obtain ⟨b2, hbwll, hbwlr, hb2⟩ := bh?_node.mp hbwl
                  simp [cbw] at hb2
                  have hb2e : n = b2 := by omega
                  subst hb2e
                  have hpbnp : pbal (Path.cons .left .black wk wr rest) (n + 1) = some rn :=
                    pbal_cons.mpr ⟨hbwr, by simpa [cbw] using hpbRest⟩
                  have htopnp : topBlack (Path.cons .left .black wk wr rest) = true :=
                    topBlack_cons_black htopRest
                  by_cases hg1 : (isBlackT wll && isBlackT wlr) = true
                  · -- cases 1 then 2: the new x is the now-red parent; blacken it
                    obtain ⟨hwllB, hwlrB⟩ := Bool.and_eq_true_iff.mp hg1
                    have hokS : okC (.node .black x pk (.node .red wll wlk wlr)) = true :=
                      okC_node.mpr ⟨hokx,
                        okC_node.mpr ⟨hwll_ok, hwlr_ok, fun _ => ⟨hwllB, hwlrB⟩⟩,
                        fun h => nomatch h⟩
                    have hbhS : bh? (.node .black x pk (.node .red wll wlk wlr))
                        = some (n + 1) :=
                      bh?_node.mpr ⟨n, hbh,
                        bh?_node.mpr ⟨n, hbwll, hbwlr, by simp [cbw]⟩, by simp [cbw]⟩
                    refine ⟨plug (Path.cons .left .black wk wr rest)
                        (.node .black x pk (.node .red wll wlk wlr)),
                      by simp [dfStep, hg1], ?_, ?_, ?_, ?_⟩
                    · exact ColorOf_plug _ _ (by simp) htopnp
                    · exact okC_plug _ _ hokS
                        (by
                          refine okCPb_cons.mpr ⟨hwr_ok, ⟨?_, hcpRest⟩⟩
                          intro h
                          exact absurd h (by simp))
                    · exact ⟨rn, bh?_plug _ _ _ _ hbhS hpbnp⟩
                    · rw [inorder_plug]
                      simp [leftL, rightL, inorder]
                  · have hg1f : (isBlackT wll && isBlackT wlr) = false := by
                      simpa using hg1
                    by_cases hg2 : isBlackT wlr = true
                    · -- cases 1, 3 then 4
                      have hwllR : isRedT wll = true := by
                        cases hq : isBlackT wll with
                        | true => simp [hq, hg2] at hg1f
                        | false => simpa [isBlackT] using hq
                      obtain ⟨wlll, wllk, wllr, rfl⟩ := red_node_of_isRedT hwllR
                      obtain ⟨hwlll_ok, hwllr_ok, _⟩ := okC_node.mp hwll_ok
                      obtain ⟨b3, hbwlll, hbwllr, hb3⟩ := bh?_node.mp hbwll
                      simp [cbw] at hb3
                      have hb3e : n = b3 := by omega
                      subst hb3e
                      have hokS : okC (.node .red (.node .black x pk wlll) wllk
                          (.node .black wllr wlk wlr)) = true :=
                        okC_node.mpr ⟨okC_node.mpr ⟨hokx, hwlll_ok, fun h => nomatch h⟩,
                          okC_node.mpr ⟨hwllr_ok, hwlr_ok, fun h => nomatch h⟩,
                          fun _ => ⟨rfl, rfl⟩⟩
                      have hbhS : bh? (.node .red (.node .black x pk wlll) wllk
                          (.node .black wllr wlk wlr)) = some (n + 1) :=
                        bh?_node.mpr ⟨n + 1,
                          bh?_node.mpr ⟨n, hbh, hbwlll, by simp [cbw]⟩,
                          bh?_node.mpr ⟨n, hbwllr, hbwlr, by simp [cbw]⟩, by simp [cbw]⟩
                      have hBred : isBlackT (Tree.node .red wlll wllk wllr) = false := rfl
                      obtain ⟨hcolT, hokT, hbhT⟩ := exit_pack2 hokS hbhS hpbnp
                        (by
                          refine okCPb_cons.mpr ⟨hwr_ok, ⟨?_, hcpRest⟩⟩
                          intro h
                          exact absurd h (by simp))
                      refine ⟨_, by simp [dfStep, hBred, hg2, blackenT, blackenRoot],
                        hcolT, hokT, hbhT, ?_⟩
                      rw [inorder_blackenT, inorder_plug]
                      simp [leftL, rightL, inorder]
                    · -- cases 1 then 4
                      have hg2f : isBlackT wlr = false := by simpa using hg2
                      have hwlrR : isRedT wlr = true := by simpa [isBlackT] using hg2f
                      have hbhBwlr : bh? (blackenT wlr) = some (n + 1) :=
                        bh?_blackenT_of_red (isRedT_iff.mp hwlrR) hbwlr
                      have hokS : okC (.node .red (.node .black x pk wll) wlk
                          (blackenT wlr)) = true :=
                        okC_node.mpr ⟨okC_node.mpr ⟨hokx, hwll_ok, fun h => nomatch h⟩,
                          okC_blackenT hwlr_ok,
                          fun _ => ⟨rfl, isBlackT_iff.mpr (ColorOf_blackenT _)⟩⟩
                      have hbhS : bh? (.node .red (.node .black x pk wll) wlk
                          (blackenT wlr)) = some (n + 1) :=
                        bh?_node.mpr ⟨n + 1,
                          bh?_node.mpr ⟨n, hbh, hbwll, by simp [cbw]⟩,
                          hbhBwlr, by simp [cbw]⟩
                      obtain ⟨hcolT, hokT, hbhT⟩ := exit_pack2 hokS hbhS hpbnp
                        (by
                          refine okCPb_cons.mpr ⟨hwr_ok, ⟨?_, hcpRest⟩⟩
                          intro h
                          exact absurd h (by simp))
                      refine ⟨_, by simp [dfStep, hg2f, blackenRoot, blackenT],
                        hcolT, hokT, hbhT, ?_⟩
                      rw [inorder_blackenT, inorder_plug]
                      simp [leftL, rightL, inorder, inorder_blackenT]
              | black =>
                obtain ⟨hwl_ok, hwr_ok, _⟩ := okC_node.mp hwok
                obtain ⟨b, hbwl, hbwr, hb⟩ := bh?_node.mp hwbh
                simp [cbw] at hb
                have hbe : n = b := by omega
                subst hbe
                by_cases hg1 : (isBlackT wl && isBlackT wr) = true
                · -- case 2: recolor w red, move the deficiency up
                  obtain ⟨hwlB, hwrB⟩ := Bool.and_eq_true_iff.mp hg1
                  have hokbx2 : okC (blackenT (.node pc x pk (.node .red wl wk wr))) = true := by
                    cases pc <;>
                      exact okC_node.mpr ⟨hokx,
                        okC_node.mpr ⟨hwl_ok, hwr_ok, fun _ => ⟨hwlB, hwrB⟩⟩,
                        fun h => nomatch h⟩
                  have hbhx2 : bh? (.node pc x pk (.node .red wl wk wr))
                      = some (n + cbw pc) :=
                    bh?_node.mpr ⟨n, hbh,
                      bh?_node.mpr ⟨n, hbwl, hbwr, by simp [cbw]⟩, rfl⟩
                  have hpb2 : pbal rest (n + cbw pc + 1) = some rn := by
                    have harith : n + cbw pc + 1 = n + 1 + cbw pc := by omega
                    rw [harith]
                    exact hpbRest
                  obtain ⟨t, ht, hcolT, hokT, hbhT, hinT⟩ :=
                    ih rest hlenRest (.node pc x pk (.node .red wl wk wr)) (n + cbw pc) rn
                      hokbx2 hbhx2 hpb2 (okCPb_toBlack rest pc hcpRest) htopRest
                  refine ⟨t, ?_, hcolT, hokT, hbhT, ?_⟩
                  · rw [show dfStep x .left pc pk (.node .black wl wk wr) rest
                        = deleteFixupGo (.node pc x pk (.node .red wl wk wr)) rest by
                      simp [dfStep, hg1]]
                    exact ht
                  · rw [hinT]
                    simp [leftL, rightL, inorder]
                · have hg1f : (isBlackT wl && isBlackT wr) = false := by simpa using hg1
                  by_cases hg2 : isBlackT wr = true
                  · -- case 3 then 4
                    have hwlR : isRedT wl = true := by
                      cases hq : isBlackT wl with
                      | true => simp [hq, hg2] at hg1f
                      | false => simpa [isBlackT] using hq
                    obtain ⟨wll, wlk, wlr, rfl⟩ := red_node_of_isRedT hwlR
                    obtain ⟨hwll_ok, hwlr_ok, _⟩ := okC_node.mp hwl_ok
                    obtain ⟨b2, hbwll, hbwlr, hb2⟩ := bh?_node.mp hbwl
                    simp [cbw] at hb2
                    have hb2e : n = b2 := by omega
                    subst hb2e
                    have hokS : okC (.node pc (.node .black x pk wll) wlk
                        (.node .black wlr wk wr)) = true :=
                      okC_node.mpr ⟨okC_node.mpr ⟨hokx, hwll_ok, fun h => nomatch h⟩,
                        okC_node.mpr ⟨hwlr_ok, hwr_ok, fun h => nomatch h⟩,
                        fun _ => ⟨rfl, rfl⟩⟩
                    have hbhS : bh? (.node pc (.node .black x pk wll) wlk
                        (.node .black wlr wk wr)) = some (n + 1 + cbw pc) :=
                      bh?_node.mpr ⟨n + 1,
                        bh?_node.mpr ⟨n, hbh, hbwll, by simp [cbw]⟩,
                        bh?_node.mpr ⟨n, hbwlr, hbwr, by simp [cbw]⟩, rfl⟩
                    have hBred : isBlackT (Tree.node .red wll wlk wlr) = false := rfl
                    obtain ⟨hcolT, hokT, hbhT⟩ := exit_pack2 hokS hbhS hpbRest hcpRest
                    refine ⟨_, by simp [dfStep, hBred, hg2, blackenT, blackenRoot],
                      hcolT, hokT, hbhT, ?_⟩
                    rw [inorder_blackenT, inorder_plug]
                    simp [leftL, rightL, inorder]
                  · -- case 4
                    have hg2f : isBlackT wr = false := by simpa using hg2
                    have hwrR : isRedT wr = true := by simpa [isBlackT] using hg2f
                    have hbhBwr : bh? (blackenT wr) = some (n + 1) :=
                      bh?_blackenT_of_red (isRedT_iff.mp hwrR) hbwr
                    have hokS : okC (.node pc (.node .black x pk wl) wk
                        (blackenT wr)) = true :=
                      okC_node.mpr ⟨okC_node.mpr ⟨hokx, hwl_ok, fun h => nomatch h⟩,
                        okC_blackenT hwr_ok,
                        fun _ => ⟨rfl, isBlackT_iff.mpr (ColorOf_blackenT _)⟩⟩
                    have hbhS : bh? (.node pc (.node .black x pk wl) wk
                        (blackenT wr)) = some (n + 1 + cbw pc) :=
                      bh?_node.mpr ⟨n + 1,
                        bh?_node.mpr ⟨n, hbh, hbwl, by simp [cbw]⟩, hbhBwr, rfl⟩
                    obtain ⟨hcolT, hokT, hbhT⟩ := exit_pack2 hokS hbhS hpbRest hcpRest
                    refine ⟨_, by simp [dfStep, hg2f, blackenRoot, blackenT],
                      hcolT, hokT, hbhT, ?_⟩
                    rw [inorder_blackenT, inorder_plug]
                    simp [leftL, rightL, inorder, inorder_blackenT]
          | right =>
            cases w with
            | nil => exact absurd (bh?_nil_eq hwbh) (by omega)
            | node wc wl wk wr =>
              cases wc with
              | red =>
                have hpc : pc = .black := by
                  cases pc with
                  | black => rfl
                  | red =>
                      have := (himpw rfl).2
                      simp [isBlackT, isRedT] at this
                subst hpc
                obtain ⟨hwl_ok, hwr_ok, himp2⟩ := okC_node.mp hwok
                obtain ⟨hwlB, hwrB⟩ := himp2 rfl
                obtain ⟨b, hbwl, hbwr, hb⟩ := bh?_node.mp hwbh
                simp [cbw] at hb
                have hbe : b = n + 1 := by omega
                subst hbe
                cases wr with
                | nil => exact absurd (bh?_nil_eq hbwr) (by omega)
                | node wrc wrl wrk wrr =>
                  have hwrc : wrc = .black := by
                    have := isBlackT_iff.mp hwrB
                    simpa [ColorOf] using this
                  subst hwrc
                  obtain ⟨hwrl_ok, hwrr_ok, _⟩ := okC_node.mp hwr_ok
                  obtain ⟨b2, hbwrl, hbwrr, hb2⟩ := bh?_node.mp hbwr
                  simp [cbw] at hb2
                  have hb2e : n = b2 := by omega
                  subst hb2e
                  have hpbnp : pbal (Path.cons .right .black wk wl rest) (n + 1) = some rn :=
                    pbal_cons.mpr ⟨hbwl, by simpa [cbw] using hpbRest⟩
                  have htopnp : topBlack (Path.cons .right .black wk wl rest) = true :=
                    topBlack_cons_black htopRest
                  by_cases hg1 : (isBlackT wrr && isBlackT wrl) = true
                  · obtain ⟨hwrrB, hwrlB⟩ := Bool.and_eq_true_iff.mp hg1
                    have hokS : okC (.node .black (.node .red wrl wrk wrr) pk x) = true :=
                      okC_node.mpr ⟨okC_node.mpr ⟨hwrl_ok, hwrr_ok, fun _ => ⟨hwrlB, hwrrB⟩⟩,
                        hokx, fun h => nomatch h⟩
                    have hbhS : bh? (.node .black (.node .red wrl wrk wrr) pk x)
                        = some (n + 1) :=
                      bh?_node.mpr ⟨n,
                        bh?_node.mpr ⟨n, hbwrl, hbwrr, by simp [cbw]⟩, hbh, by simp [cbw]⟩
                    refine ⟨plug (Path.cons .right .black wk wl rest)
                        (.node .black (.node .red wrl wrk wrr) pk x),
                      by simp [dfStep, hg1], ?_, ?_, ?_, ?_⟩
                    · exact ColorOf_plug _ _ (by simp) htopnp
                    · exact okC_plug _ _ hokS
                        (by
                          refine okCPb_cons.mpr ⟨hwl_ok, ⟨?_, hcpRest⟩⟩
                          intro h
                          exact absurd h (by simp))
                    · exact ⟨rn, bh?_plug _ _ _ _ hbhS hpbnp⟩
                    · rw [inorder_plug]
                      simp [leftL, rightL, inorder]
                  · have hg1f : (isBlackT wrr && isBlackT wrl) = false := by
                      simpa using hg1
                    by_cases hg2 : isBlackT wrl = true
                    · have hwrrR : isRedT wrr = true := by
                        cases hq : isBlackT wrr with
                        | true => simp [hq, hg2] at hg1f
                        | false => simpa [isBlackT] using hq
                      obtain ⟨wrrl, wrrk, wrrr, rfl⟩ := red_node_of_isRedT hwrrR
                      obtain ⟨hwrrl_ok, hwrrr_ok, _⟩ := okC_node.mp hwrr_ok
                      obtain ⟨b3, hbwrrl, hbwrrr, hb3⟩ := bh?_node.mp hbwrr
                      simp [cbw] at hb3
                      have hb3e : n = b3 := by omega
                      subst hb3e
                      have hokS : okC (.node .red (.node .black wrl wrk wrrl) wrrk
                          (.node .black wrrr pk x)) = true :=
                        okC_node.mpr ⟨okC_node.mpr ⟨hwrl_ok, hwrrl_ok, fun h => nomatch h⟩,
                          okC_node.mpr ⟨hwrrr_ok, hokx, fun h => nomatch h⟩,
                          fun _ => ⟨rfl, rfl⟩⟩
                      have hbhS : bh? (.node .red (.node .black wrl wrk wrrl) wrrk
                          (.node .black wrrr pk x)) = some (n + 1) :=
                        bh?_node.mpr ⟨n + 1,
                          bh?_node.mpr ⟨n, hbwrl, hbwrrl, by simp [cbw]⟩,
                          bh?_node.mpr ⟨n, hbwrrr, hbh, by simp [cbw]⟩, by simp [cbw]⟩
                      have hBred : isBlackT (Tree.node .red wrrl wrrk wrrr) = false := rfl
                      obtain ⟨hcolT, hokT, hbhT⟩ := exit_pack2 hokS hbhS hpbnp
                        (by
                          refine okCPb_cons.mpr ⟨hwl_ok, ⟨?_, hcpRest⟩⟩
                          intro h
                          exact absurd h (by simp))
                      refine ⟨_, by simp [dfStep, hBred, hg2, blackenT, blackenRoot],
                        hcolT, hokT, hbhT, ?_⟩
                      rw [inorder_blackenT, inorder_plug]
                      simp [leftL, rightL, inorder]
                    · have hg2f : isBlackT wrl = false := by simpa using hg2
                      have hwrlR : isRedT wrl = true := by simpa [isBlackT] using hg2f
                      have hbhBwrl : bh? (blackenT wrl) = some (n + 1) :=
                        bh?_blackenT_of_red (isRedT_iff.mp hwrlR) hbwrl
                      have hokS : okC (.node .red (blackenT wrl) wrk
                          (.node .black wrr pk x)) = true :=
                        okC_node.mpr ⟨okC_blackenT hwrl_ok,
                          okC_node.mpr ⟨hwrr_ok, hokx, fun h => nomatch h⟩,
                          fun _ => ⟨isBlackT_iff.mpr (ColorOf_blackenT _), rfl⟩⟩
                      have hbhS : bh? (.node .red (blackenT wrl) wrk
                          (.node .black wrr pk x)) = some (n + 1) :=
                        bh?_node.mpr ⟨n + 1, hbhBwrl,
                          bh?_node.mpr ⟨n, hbwrr, hbh, by simp [cbw]⟩, by simp [cbw]⟩
                      obtain ⟨hcolT, hokT, hbhT⟩ := exit_pack2 hokS hbhS hpbnp
                        (by
                          refine okCPb_cons.mpr ⟨hwl_ok, ⟨?_, hcpRest⟩⟩
                          intro h
                          exact absurd h (by simp))
                      refine ⟨_, by simp [dfStep, hg2f, blackenRoot, blackenT],
                        hcolT, hokT, hbhT, ?_⟩
                      rw [inorder_blackenT, inorder_plug]
                      simp [leftL, rightL, inorder, inorder_blackenT]
              | black =>
                obtain ⟨hwl_ok, hwr_ok, _⟩ := okC_node.mp hwok
                obtain ⟨b, hbwl, hbwr, hb⟩ := bh?_node.mp hwbh
                simp [cbw] at hb
                have hbe : n = b := by omega
                subst hbe
                by_cases hg1 : (isBlackT wr && isBlackT wl) = true
                · obtain ⟨hwrB, hwlB⟩ := Bool.and_eq_true_iff.mp hg1
                  have hokbx2 : okC (blackenT (.node pc (.node .red wl wk wr) pk x)) = true := by
                    cases pc <;>
                      exact okC_node.mpr ⟨okC_node.mpr ⟨hwl_ok, hwr_ok, fun _ => ⟨hwlB, hwrB⟩⟩,
                        hokx, fun h => nomatch h⟩
                  have hbhx2 : bh? (.node pc (.node .red wl wk wr) pk x)
                      = some (n + cbw pc) :=
                    bh?_node.mpr ⟨n,
                      bh?_node.mpr ⟨n, hbwl, hbwr, by simp [cbw]⟩, hbh, rfl⟩
                  have hpb2 : pbal rest (n + cbw pc + 1) = some rn := by
                    have harith : n + cbw pc + 1 = n + 1 + cbw pc := by omega
                    rw [harith]
                    exact hpbRest
                  obtain ⟨t, ht, hcolT, hokT, hbhT, hinT⟩ :=
                    ih rest hlenRest (.node pc (.node .red wl wk wr) pk x) (n + cbw pc) rn
                      hokbx2 hbhx2 hpb2 (okCPb_toBlack rest pc hcpRest) htopRest
                  refine ⟨t, ?_, hcolT, hokT, hbhT, ?_⟩
                  · rw [show dfStep x .right pc pk (.node .black wl wk wr) rest
                        = deleteFixupGo (.node pc (.node .red wl wk wr) pk x) rest by
                      simp [dfStep, hg1]]
                    exact ht
                  · rw [hinT]
                    simp [leftL, rightL, inorder]
                · have hg1f : (isBlackT wr && isBlackT wl) = false := by simpa using hg1
                  by_cases hg2 : isBlackT wl = true
                  · have hwrR : isRedT wr = true := by
                      cases hq : isBlackT wr with
                      | true => simp [hq, hg2] at hg1f
                      | false => simpa [isBlackT] using hq
                    obtain ⟨wrl, wrk, wrr, rfl⟩ := red_node_of_isRedT hwrR
                    obtain ⟨hwrl_ok, hwrr_ok, _⟩ := okC_node.mp hwr_ok
                    obtain ⟨b2, hbwrl, hbwrr, hb2⟩ := bh?_node.mp hbwr
                    simp [cbw] at hb2
                    have hb2e : n = b2 := by omega
                    subst hb2e
                    have hokS : okC (.node pc (.node .black wl wk wrl) wrk
                        (.node .black wrr pk x)) = true :=
                      okC_node.mpr ⟨okC_node.mpr ⟨hwl_ok, hwrl_ok, fun h => nomatch h⟩,
                        okC_node.mpr ⟨hwrr_ok, hokx, fun h => nomatch h⟩,
                        fun _ => ⟨rfl, rfl⟩⟩
                    have hbhS : bh? (.node pc (.node .black wl wk wrl) wrk
                        (.node .black wrr pk x)) = some (n + 1 + cbw pc) :=
                      bh?_node.mpr ⟨n + 1,
                        bh?_node.mpr ⟨n, hbwl, hbwrl, by simp [cbw]⟩,
                        bh?_node.mpr ⟨n, hbwrr, hbh, by simp [cbw]⟩, rfl⟩
                    have hBred : isBlackT (Tree.node .red wrl wrk wrr) = false := rfl
                    obtain ⟨hcolT, hokT, hbhT⟩ := exit_pack2 hokS hbhS hpbRest hcpRest
                    refine ⟨_, by simp [dfStep, hBred, hg2, blackenT, blackenRoot],
                      hcolT, hokT, hbhT, ?_⟩
                    rw [inorder_blackenT, inorder_plug]
                    simp [leftL, rightL, inorder]
                  · have hg2f : isBlackT wl = false := by simpa using hg2
                    have hwlR : isRedT wl = true := by simpa [isBlackT] using hg2f
                    have hbhBwl : bh? (blackenT wl) = some (n + 1) :=
                      bh?_blackenT_of_red (isRedT_iff.mp hwlR) hbwl
                    have hokS : okC (.node pc (blackenT wl) wk
                        (.node .black wr pk x)) = true :=
                      okC_node.mpr ⟨okC_blackenT hwl_ok,
                        okC_node.mpr ⟨hwr_ok, hokx, fun h => nomatch h⟩,
                        fun _ => ⟨isBlackT_iff.mpr (ColorOf_blackenT _), rfl⟩⟩
                    have hbhS : bh? (.node pc (blackenT wl) wk
                        (.node .black wr pk x)) = some (n + 1 + cbw pc) :=
                      bh?_node.mpr ⟨n + 1, hbhBwl,
                        bh?_node.mpr ⟨n, hbwr, hbh, by simp [cbw]⟩, rfl⟩
                    obtain ⟨hcolT, hokT, hbhT⟩ := exit_pack2 hokS hbhS hpbRest hcpRest
                    refine ⟨_, by simp [dfStep, hg2f, blackenRoot, blackenT],
                      hcolT, hokT, hbhT, ?_⟩
                    rw [inorder_blackenT, inorder_plug]
                    simp [leftL, rightL, inorder, inorder_blackenT]

/-! ### Splicing the in-order successor (delete with two children) -/

/-- Keys and siblings recorded by `splMin`, flattened to the in-order
sequence that sits to the right of the spliced minimum. -/
def rightEs : List (Color × Int × Tree) → List Int
  | [] => []
  | (_, k, sib) :: es => rightEs es ++ k :: inorder sib

theorem leftL_extendPath : ∀ (es : List (Color × Int × Tree)) (base : Path),
    leftL (extendPath es base) = leftL base := by
  intro es
  induction es with
  | nil => intro base; rfl
  | cons e es ih =>
      intro base
      obtain ⟨c, k, sib⟩ := e
      rw [show extendPath ((c, k, sib) :: es) base
          = extendPath es (.cons .left c k sib base) from rfl, ih]
      rfl

theorem rightL_extendPath : ∀ (es : List (Color × Int × Tree)) (base : Path),
    rightL (extendPath es base) = rightEs es ++ rightL base := by
  intro es
  induction es with
  | nil => intro base; simp [extendPath, rightEs]
  | cons e es ih =>
      intro base
      obtain ⟨c, k, sib⟩ := e
      rw [show extendPath ((c, k, sib) :: es) base
          = extendPath es (.cons .left c k sib base) from rfl, ih]
      simp [rightL, rightEs]

theorem extendPath_ne_root : ∀ (es : List (Color × Int × Tree)) (d : Dir)
    (c : Color) (k : Int) (sib : Tree) (r : Path),
    extendPath es (Path.cons d c k sib r) ≠ Path.root := by
  intro es
  induction es with
  | nil => intro d c k sib r h; cases h
  | cons e es ih =>
      intro d c k sib r
      obtain ⟨c2, k2, sib2⟩ := e
      exact ih .left c2 k2 sib2 (Path.cons d c k sib r)

theorem topBlack_extendPath : ∀ (es : List (Color × Int × Tree)) (d : Dir)
    (c : Color) (k : Int) (sib : Tree) (r : Path),
    topBlack (Path.cons d c k sib r) = true →
    topBlack (extendPath es (Path.cons d c k sib r)) = true := by
  intro es
  induction es with
  | nil => intro d c k sib r h; exact h
  | cons e es ih =>
      intro d c k sib r h
      obtain ⟨c2, k2, sib2⟩ := e
      exact ih .left c2 k2 sib2 (Path.cons d c k sib r) h

theorem splMin_spec : ∀ (l : Tree) (c : Color) (k : Int) (r : Tree) (m : Nat),
    okC (.node c l k r) = true → bh? (.node c l k r) = some m →
    okC (splMin c l k r).2.2.1 = true ∧
    bh? (splMin c l k r).2.2.1 = some 0 ∧
    ((splMin c l k r).1 = .red → isBlackT (splMin c l k r).2.2.1 = true) ∧
    (∀ base rn2, pbal base m = some rn2 →
      pbal (extendPath (splMin c l k r).2.2.2 base) (cbw (splMin c l k r).1) = some rn2) ∧
    (∀ base, okCPb base c = true →
      okCPb (extendPath (splMin c l k r).2.2.2 base) .black = true) ∧
    inorder (.node c l k r)
      = (splMin c l k r).2.1 :: inorder (splMin c l k r).2.2.1
          ++ rightEs (splMin c l k r).2.2.2 := by
  intro l
  induction l with
  | nil =>
      intro c k r m hok hbh
      obtain ⟨hokl, hokr, himp⟩ := okC_node.mp hok
      obtain ⟨a, hbl, hbr, hm⟩ := bh?_node.mp hbh
      have ha : a = 0 := bh?_nil_eq hbl
      subst ha
      refine ⟨hokr, hbr, fun hc => (himp hc).2, ?_, ?_, by simp [splMin, inorder, rightEs]⟩
      · intro base rn2 hpb
        simpa [splMin, extendPath, hm] using hpb
      · intro base hcp
        simpa [splMin, extendPath] using okCPb_toBlack base c hcp
  | node lc ll lk lr ihl _ =>
      intro c k r m hok hbh
      obtain ⟨hokl, hokr, himp⟩ := okC_node.mp hok
      obtain ⟨a, hbl, hbr, hm⟩ := bh?_node.mp hbh
      obtain ⟨ihok, ihbh, ihred, ihpb, ihcp, ihin⟩ := ihl lc lk lr a hokl hbl
      have hsp : splMin c (.node lc ll lk lr) k r
          = ((splMin lc ll lk lr).1, (splMin lc ll lk lr).2.1,
             (splMin lc ll lk lr).2.2.1, (c, k, r) :: (splMin lc ll lk lr).2.2.2) := rfl
      rw [hsp]
      refine ⟨ihok, ihbh, ihred, ?_, ?_, ?_⟩
      · intro base rn2 hpb
        exact ihpb (.cons .left c k r base) rn2 (pbal_cons.mpr ⟨hbr, by rw [← hm]; exact hpb⟩)
      · intro base hcp
        refine ihcp (.cons .left c k r base) (okCPb_cons.mpr ⟨hokr, ⟨?_, hcp⟩⟩)
        intro hc
        obtain ⟨hbll, hbrr⟩ := himp hc
        refine ⟨?_, hbrr⟩
        have := isBlackT_iff.mp hbll
        simpa [ColorOf] using this
      · rw [show inorder (.node c (.node lc ll lk lr) k r)
            = inorder (.node lc ll lk lr) ++ k :: inorder r from rfl, ihin]
        simp [rightEs]

/-! ### Remove: full functional specification -/

theorem removeGo_spec : ∀ (t : Tree) (key : Int) (p : Path) (n rn : Nat),
    okC t = true → bh? t = some n → pbal p n = some rn →
    okCPb p (ColorOf t) = true → topsOK p t →
    List.Sorted (· < ·) (inorder t) →
    (removeGo t key p = .notFound ∧ key ∉ inorder t) ∨
    (∃ t2, removeGo t key p = .ok t2 ∧ key ∈ inorder t ∧
      ColorOf t2 = .black ∧ okC t2 = true ∧ (∃ m, bh? t2 = some m) ∧
      inorder t2 = leftL p ++ (inorder t).erase key ++ rightL p) := by
  intro t
  induction t with
  | nil =>
      intro key p n rn _ _ _ _ _ _
      exact Or.inl ⟨rfl, by simp [inorder]⟩
  | node c l k r ihl ihr =>
      intro key p n rn hok hbh hpb hcp htop hs
      obtain ⟨hokl, hokr, himp⟩ := okC_node.mp hok
      obtain ⟨a, hbl, hbr, hna⟩ := bh?_node.mp hbh
      obtain ⟨hsl, hsr, hll, hrr⟩ := sorted_node hs
      have htbp : topBlack p = true := by
        cases p with
        | root => rfl
        | cons d2 c2 k2 s2 r2 => exact htop
      have hrootc : p = Path.root → c = .black := by
        intro hp
        rw [hp] at htop
        simpa [topsOK, ColorOf] using htop
      by_cases hk : key = k
      · subst hk
        refine Or.inr ?_
        rw [show removeGo (.node c l key r) key p = delGo c l key r p by
          simp [removeGo]]
        cases l with
        | nil =>
            have ha : a = 0 := bh?_nil_eq hbl
            subst ha
            rw [show delGo c .nil key r p = finishDel c r p from rfl]
            cases c with
            | black =>
                obtain ⟨t2, ht2, hcolT, hokT, hbhT, hinT⟩ :=
                  deleteFixupGo_spec (lenP p) p le_rfl r 0 rn (okC_blackenT hokr) hbr
                    (by rw [show (0 : Nat) + 1 = n by simp [hna, cbw]]; exact hpb)
                    hcp htbp
                refine ⟨t2, by simp [finishDel, ht2], by simp [inorder], hcolT, hokT, hbhT, ?_⟩
                rw [hinT]
                simp [inorder]
            | red =>
                have hrB : isBlackT r = true := (himp rfl).2
                have hpn : p ≠ Path.root := by
                  intro hp
                  exact absurd (hrootc hp) (by simp)
                have hbr0 : bh? r = some n := by
                  rw [show n = 0 by simp [hna, cbw]]
                  exact hbr
                refine ⟨plug p r, by simp [finishDel], by simp [inorder], ?_, ?_, ?_, ?_⟩
                · exact ColorOf_plug _ _ hpn htbp
                · exact okC_plug _ _ hokr
                    (by rw [isBlackT_iff.mp hrB]; exact okCPb_toBlack p _ hcp)
                · exact ⟨rn, bh?_plug _ _ _ _ hbr0 hpb⟩
                · rw [inorder_plug]
                  simp [inorder]
        | node lc ll lk lr =>
          cases r with
          | nil =>
              have ha : a = 0 := bh?_nil_eq hbr
              subst ha
              have hnotmem : key ∉ inorder (.node lc ll lk lr) := by
                intro hmem
                exact absurd (hll key hmem) (by omega)
              have herase : (inorder (.node c (.node lc ll lk lr) key .nil)).erase key
                  = inorder (.node lc ll lk lr) := by
                rw [show inorder (.node c (.node lc ll lk lr) key .nil)
                    = inorder (.node lc ll lk lr) ++ [key] by simp [inorder]]
                rw [List.erase_append_right _ hnotmem]
                simp
              rw [show delGo c (.node lc ll lk lr) key .nil p
                  = finishDel c (.node lc ll lk lr) p from rfl]
              cases c with
              | black =>
                  obtain ⟨t2, ht2, hcolT, hokT, hbhT, hinT⟩ :=
                    deleteFixupGo_spec (lenP p) p le_rfl (.node lc ll lk lr) 0 rn
                      (okC_blackenT hokl) hbl
                      (by rw [show (0 : Nat) + 1 = n by simp [hna, cbw]]; exact hpb)
                      hcp htbp
                  refine ⟨t2, by simp [finishDel, ht2], by simp [inorder], hcolT, hokT, hbhT, ?_⟩
                  rw [hinT, herase]
              | red =>
                  have hlB : isBlackT (.node lc ll lk lr) = true := (himp rfl).1
                  have hpn : p ≠ Path.root := by
                    intro hp
                    exact absurd (hrootc hp) (by simp)
                  have hbl0 : bh? (.node lc ll lk lr) = some n := by
                    rw [show n = 0 by simp [hna, cbw]]
                    exact hbl
                  refine ⟨plug p (.node lc ll lk lr), by simp [finishDel],
                    by simp [inorder], ?_, ?_, ?_, ?_⟩
                  · exact ColorOf_plug _ _ hpn htbp
                  · exact okC_plug _ _ hokl
                      (by rw [isBlackT_iff.mp hlB]; exact okCPb_toBlack p _ hcp)
                  · exact ⟨rn, bh?_plug _ _ _ _ hbl0 hpb⟩
                  · rw [inorder_plug, herase]
          | node rc rl rk rr =>
              obtain ⟨ihok, ihbh, ihred, ihpb, ihcp, ihin⟩ :=
                splMin_spec rl rc rk rr a hokr hbr
              have hnotmem : key ∉ inorder (.node lc ll lk lr) := by
                intro hmem
                exact absurd (hll key hmem) (by omega)
              have herase : (inorder (.node c (.node lc ll lk lr) key
                    (.node rc rl rk rr))).erase key
                  = inorder (.node lc ll lk lr) ++ inorder (.node rc rl rk rr) := by
                rw [show inorder (.node c (.node lc ll lk lr) key (.node rc rl rk rr))
                    = inorder (.node lc ll lk lr)
                        ++ key :: inorder (.node rc rl rk rr) from rfl]
                rw [List.erase_append_right _ hnotmem, List.erase_cons_head]
              rcases hq : splMin rc rl rk rr with ⟨yc, yk, x, es⟩
              simp only [hq] at ihok ihbh ihred ihpb ihcp ihin
              rw [show delGo c (.node lc ll lk lr) key (.node rc rl rk rr) p
                  = finishDel yc x
                      (extendPath es (.cons .right c yk (.node lc ll lk lr) p)) by
                simp [delGo, hq]]
              have hpbbase : pbal (Path.cons .right c yk (.node lc ll lk lr) p) a
                  = some rn :=
                pbal_cons.mpr ⟨hbl, by rw [← hna]; exact hpb⟩
              have hpbpy := ihpb _ rn hpbbase
              have hcpbase : okCPb (Path.cons .right c yk (.node lc ll lk lr) p) rc
                  = true := by
                refine okCPb_cons.mpr ⟨hokl, ⟨?_, hcp⟩⟩
                intro hc
                obtain ⟨hlB, hrB⟩ := himp hc
                refine ⟨?_, hlB⟩
                have := isBlackT_iff.mp hrB
                simpa [ColorOf] using this
              have hcppy := ihcp _ hcpbase
              have htbbase : topBlack (Path.cons .right c yk (.node lc ll lk lr) p)
                  = true := by
                cases p with
                | root => simp [topBlack, hrootc rfl]
                | cons d2 c2 k2 s2 r2 => exact htbp
              have htoppy := topBlack_extendPath es _ _ _ _ _ htbbase
              have hleftpy : leftL (extendPath es
                    (Path.cons .right c yk (.node lc ll lk lr) p))
                  = leftL p ++ inorder (.node lc ll lk lr) ++ [yk] := by
                rw [leftL_extendPath]
                rfl
              have hrightpy : rightL (extendPath es
                    (Path.cons .right c yk (.node lc ll lk lr) p))
                  = rightEs es ++ rightL p := by
                rw [rightL_extendPath]
                rfl
              cases yc with
              | black =>
                  obtain ⟨t2, ht2, hcolT, hokT, hbhT, hinT⟩ :=
                    deleteFixupGo_spec (lenP _) _ le_rfl x 0 rn
                      (okC_blackenT ihok) ihbh (by simpa [cbw] using hpbpy)
                      hcppy htoppy
                  refine ⟨t2, by simp [finishDel, ht2], by simp [inorder], hcolT, hokT, hbhT, ?_⟩
                  rw [hinT, herase, hleftpy, hrightpy, ihin]
                  simp
              | red =>
                  have hxB : isBlackT x = true := ihred rfl
                  have hbx0 : pbal (extendPath es
                      (Path.cons .right c yk (.node lc ll lk lr) p)) 0 = some rn := by
                    simpa [cbw] using hpbpy
                  refine ⟨plug (extendPath es
                      (Path.cons .right c yk (.node lc ll lk lr) p)) x,
                    by simp [finishDel], by simp [inorder], ?_, ?_, ?_, ?_⟩
                  · exact ColorOf_plug _ _ (extendPath_ne_root _ _ _ _ _ _) htoppy
                  · exact okC_plug _ _ ihok (by rw [isBlackT_iff.mp hxB]; exact hcppy)
                  · exact ⟨rn, bh?_plug _ _ _ _ ihbh hbx0⟩
                  · rw [inorder_plug, herase, hleftpy, hrightpy, ihin]
                    simp
      · by_cases hlt : key < k
        · rw [show removeGo (.node c l k r) key p
              = removeGo l key (.cons .left c k r p) by simp [removeGo, hk, hlt]]
          have hres := ihl key (.cons .left c k r p) a rn hokl hbl
            (pbal_cons.mpr ⟨hbr, by rw [← hna]; exact hpb⟩)
            (okCPb_cons.mpr ⟨hokr, ⟨fun hc => ⟨isBlackT_iff.mp (himp hc).1, (himp hc).2⟩, hcp⟩⟩)
            (topsOK_step htop .left k r) hsl
          rcases hres with ⟨hnf, hnm⟩ | ⟨t2, ht2, hmem, hcolT, hokT, hbhT, hinT⟩
          · refine Or.inl ⟨hnf, ?_⟩
            intro hmem
            rcases List.mem_append.mp hmem with h | h
            · exact hnm h
            · rcases List.mem_cons.mp h with h | h
              · exact hk h
              · exact absurd (hrr key h) (by omega)
          · refine Or.inr ⟨t2, ht2, by simp [inorder]; exact Or.inl hmem, hcolT, hokT, hbhT, ?_⟩
            rw [hinT]
            rw [show (inorder (.node c l k r)).erase key
                = (inorder l).erase key ++ k :: inorder r by
              rw [show inorder (.node c l k r) = inorder l ++ k :: inorder r from rfl]
              exact List.erase_append_left _ hmem]
            simp [leftL, rightL]
        · have hgt : k < key := by omega
          rw [show removeGo (.node c l k r) key p
              = removeGo r key (.cons .right c k l p) by simp [removeGo, hk, hlt]]
          have hres := ihr key (.cons .right c k l p) a rn hokr hbr
            (pbal_cons.mpr ⟨hbl, by rw [← hna]; exact hpb⟩)
            (okCPb_cons.mpr ⟨hokl, ⟨fun hc => ⟨isBlackT_iff.mp (himp hc).2, (himp hc).1⟩, hcp⟩⟩)
            (topsOK_step htop .right k l) hsr
          rcases hres with ⟨hnf, hnm⟩ | ⟨t2, ht2, hmem, hcolT, hokT, hbhT, hinT⟩
          · refine Or.inl ⟨hnf, ?_⟩
            intro hmem
            rcases List.mem_append.mp hmem with h | h
            · exact absurd (hll key h) (by omega)
            · rcases List.mem_cons.mp h with h | h
              · exact hk h
              · exact hnm h
          · refine Or.inr ⟨t2, ht2, by simp [inorder]; exact Or.inr (Or.inr hmem),
              hcolT, hokT, hbhT, ?_⟩
            rw [hinT]
            have hnml : key ∉ inorder l := by
              intro hmem2
              exact absurd (hll key hmem2) (by omega)
            rw [show (inorder (.node c l k r)).erase key
                = inorder l ++ k :: (inorder r).erase key by
              rw [show inorder (.node c l k r) = inorder l ++ k :: inorder r from rfl]
              rw [List.erase_append_right _ hnml, List.erase_cons_tail]
              simp
              omega]
            simp [leftL, rightL]

theorem removeS_spec (s : SetS) (key : Int) (h : RBInv s.root) :
    (containsGo s.root key = false → removeS s key = some (false, s)) ∧
    (containsGo s.root key = true → ∃ t,
      removeS s key = some (true, ⟨t, s.size - 1⟩) ∧ RBInv t ∧
      inorder t = (inorder s.root).erase key) := by
  obtain ⟨hroot, hok, ⟨n, hbh⟩, hs⟩ := h
  have hres := removeGo_spec s.root key .root n n hok hbh rfl
    (by rw [hroot]; rfl) hroot hs
  constructor
  · intro hc
    rcases hres with ⟨hnf, _⟩ | ⟨t2, _, hmem, _⟩
    · simp [removeS, hnf]
    · rw [(containsGo_iff _ _ hs).mpr hmem] at hc
      cases hc
  · intro hc
    rw [containsGo_iff _ _ hs] at hc
    rcases hres with ⟨_, hnm⟩ | ⟨t2, ht2, _, hcolT, hokT, hbhT, hinT⟩
    · exact absurd hc hnm
    · refine ⟨t2, by simp [removeS, ht2], ⟨hcolT, hokT, hbhT, ?_⟩, ?_⟩
      · rw [show inorder t2 = (inorder s.root).erase key by
            simpa [leftL, rightL] using hinT]
        exact List.Pairwise.sublist (List.erase_sublist _ _) hs
      · simpa [leftL, rightL] using hinT

/-! ### Claim C4: Remove postcondition -/

/-- Claim C4: on a set satisfying the red-black invariants, removing a
present key returns true, decreases the size by exactly one and makes
`Contains` false; removing an absent key returns false and leaves the
entire structure unchanged. -/
theorem claim4_remove_postcondition (s : SetS) (key : Int) (h : RBInv s.root) :
    (containsGo s.root key = true → ∃ s2, removeS s key = some (true, s2) ∧
      s2.size = s.size - 1 ∧ containsGo s2.root key = false) ∧
    (containsGo s.root key = false → removeS s key = some (false, s)) := by
  have hspec := removeS_spec s key h
  constructor
  · intro hc
    obtain ⟨t, ht, hinv, hin⟩ := hspec.2 hc
    refine ⟨⟨t, s.size - 1⟩, ht, rfl, ?_⟩
    have hnd : (inorder s.root).Nodup := h.2.2.2.nodup
    rw [show containsGo (⟨t, s.size - 1⟩ : SetS).root key = containsGo t key from rfl]
    rw [show (containsGo t key = false) ↔ ¬(containsGo t key = true) by simp]
    rw [containsGo_iff _ _ hinv.2.2.2, hin]
    intro hmem
    exact absurd ((hnd.mem_erase_iff.mp hmem).1) (by simp)
  · exact hspec.1

theorem claim4_witness : ∃ s2,
    removeS ⟨.node .black .nil 1 .nil, 1⟩ 1 = some (true, s2) ∧
      s2.size = (⟨.node .black .nil 1 .nil, 1⟩ : SetS).size - 1 ∧
      containsGo s2.root 1 = false :=
  (claim4_remove_postcondition ⟨.node .black .nil 1 .nil, 1⟩ 1
    ⟨rfl, rfl, ⟨1, rfl⟩, List.sorted_singleton 1⟩).1 rfl

/-! ### Claim C8: deletion fixup never reads through a nil sibling -/

/-- Claim C8: for every `Remove` on a set satisfying the red-black
invariants, the deletion fixup never dereferences a nil pointer — in the
embedding, the removal path never produces the crash marker (`DRes.crash`
marks exactly the unguarded `w.color` / `w.left` / `w.right` reads of
set.go lines 364-411 reaching a nil node). -/
theorem claim8_fixup_sibling_nonnull (s : SetS) (key : Int) (h : RBInv s.root) :
    removeGo s.root key .root ≠ DRes.crash ∧ removeS s key ≠ none := by
  obtain ⟨hroot, hok, ⟨n, hbh⟩, hs⟩ := h
  have hres := removeGo_spec s.root key .root n n hok hbh rfl
    (by rw [hroot]; rfl) hroot hs
  rcases hres with ⟨hnf, _⟩ | ⟨t2, ht2, _⟩
  · exact ⟨by simp [hnf], by simp [removeS, hnf]⟩
  · exact ⟨by simp [ht2], by simp [removeS, ht2]⟩

theorem claim8_witness :
    removeGo (⟨.node .black .nil 1 .nil, 1⟩ : SetS).root 1 .root ≠ DRes.crash ∧
      removeS ⟨.node .black .nil 1 .nil, 1⟩ 1 ≠ none :=
  claim8_fixup_sibling_nonnull ⟨.node .black .nil 1 .nil, 1⟩ 1
    ⟨rfl, rfl, ⟨1, rfl⟩, List.sorted_singleton 1⟩

/-! ### Traversal: minimum/maximum positions and successor walks -/

theorem minPos_facts : ∀ (l : Tree) (c : Color) (k : Int) (r : Tree) (p : Path),
    (minPos c l k r p).l = .nil ∧
    leftL (minPos c l k r p).p = leftL p ∧
    (minPos c l k r p).k :: inorder (minPos c l k r p).r
        ++ rightL (minPos c l k r p).p
      = inorder (.node c l k r) ++ rightL p := by
  intro l
  induction l with
  | nil => intro c k r p; exact ⟨rfl, rfl, by simp [minPos, inorder]⟩
  | node lc ll lk lr ihl _ =>
      intro c k r p
      obtain ⟨h1, h2, h3⟩ := ihl lc lk lr (.cons .left c k r p)
      rw [show minPos c (.node lc ll lk lr) k r p
          = minPos lc ll lk lr (.cons .left c k r p) from rfl]
      refine ⟨h1, by rw [h2]; rfl, ?_⟩
      rw [h3]
      simp [rightL, inorder]

theorem maxPos_facts : ∀ (r : Tree) (c : Color) (l : Tree) (k : Int) (p : Path),
    (maxPos c l k r p).r = .nil ∧
    rightL (maxPos c l k r p).p = rightL p ∧
    leftL (maxPos c l k r p).p ++ inorder (maxPos c l k r p).l
        ++ [(maxPos c l k r p).k]
      = leftL p ++ inorder (.node c l k r) := by
  intro r
  induction r with
  | nil => intro c l k p; exact ⟨rfl, rfl, by simp [maxPos, inorder]⟩
  | node rc rl rk rr _ ihr =>
      intro c l k p
      obtain ⟨h1, h2, h3⟩ := ihr rc rl rk (.cons .right c k l p)
      rw [show maxPos c l k (.node rc rl rk rr) p
          = maxPos rc rl rk rr (.cons .right c k l p) from rfl]
      refine ⟨h1, by rw [h2]; rfl, ?_⟩
      rw [h3]
      simp [leftL, inorder]

theorem upRight_none : ∀ (p : Path) (x : Tree),
    upRight x p = none → rightL p = [] := by
  intro p
  induction p with
  | root => intro x _; rfl
  | cons d c k sib rest ih =>
      intro x h
      cases d with
      | right => exact ih _ h
      | left => simp [upRight] at h

theorem upRight_some : ∀ (p : Path) (x : Tree) (q : Pos),
    upRight x p = some q →
    q.k :: inorder q.r ++ rightL q.p = rightL p := by
  intro p
  induction p with
  | root => intro x q h; simp [upRight] at h
  | cons d c k sib rest ih =>
      intro x q h
      cases d with
      | right => exact ih _ q h
      | left =>
          simp only [upRight, Option.some.injEq] at h
          subst h
          rfl

theorem upLeft_none : ∀ (p : Path) (x : Tree),
    upLeft x p = none → leftL p = [] := by
  intro p
  induction p with
  | root => intro x _; rfl
  | cons d c k sib rest ih =>
      intro x h
      cases d with
      | left => exact ih _ h
      | right => simp [upLeft] at h

theorem upLeft_some : ∀ (p : Path) (x : Tree) (q : Pos),
    upLeft x p = some q →
    leftL q.p ++ inorder q.l ++ [q.k] = leftL p := by
  intro p
  induction p with
  | root => intro x q h; simp [upLeft] at h
  | cons d c k sib rest ih =>
      intro x q h
      cases d with
      | left => exact ih _ q h
      | right =>
          simp only [upLeft, Option.some.injEq] at h
          subst h
          rfl

/-- Forward iteration from a position lists the current key followed by
everything to its right, provided enough fuel. -/
theorem collect_fwd : ∀ (fuel : Nat) (q : Pos),
    (inorder q.r ++ rightL q.p).length < fuel →
    iterCollect fuel ⟨some q, false⟩ = q.k :: (inorder q.r ++ rightL q.p) := by
  intro fuel
  induction fuel with
  | zero => intro q h; omega
  | succ m ih =>
      intro q hlen
      rw [show iterCollect (m + 1) ⟨some q, false⟩
          = q.k :: iterCollect m (iterNext ⟨some q, false⟩).2 by rfl]
      rw [show (iterNext ⟨some q, false⟩).2 = ⟨succGo q, false⟩ by simp [iterNext]]
      cases hr : q.r with
      | node rc rl rk rr =>
          have hsucc : succGo q
              = some (minPos rc rl rk rr (.cons .right q.c q.k q.l q.p)) := by
            simp [succGo, hr]
          obtain ⟨_, _, h3⟩ := minPos_facts rl rc rk rr (.cons .right q.c q.k q.l q.p)
          rw [show rightL (Path.cons .right q.c q.k q.l q.p) = rightL q.p from rfl] at h3
          simp only [List.cons_append] at h3
          rw [hr] at hlen
          have h4 := congrArg List.length h3
          simp only [List.length_cons] at h4
          have hlen2 : (inorder (minPos rc rl rk rr (.cons .right q.c q.k q.l q.p)).r
              ++ rightL (minPos rc rl rk rr (.cons .right q.c q.k q.l q.p)).p).length
              < m := by omega
          rw [hsucc, ih _ hlen2, h3]
      | nil =>
          have hsucc : succGo q = upRight (.node q.c q.l q.k .nil) q.p := by
            simp [succGo, hr]
          rw [hsucc]
          rw [hr] at hlen
          cases hup : upRight (.node q.c q.l q.k .nil) q.p with
          | none =>
              rw [show iterCollect m ⟨none, false⟩ = [] by cases m <;> rfl]
              rw [upRight_none _ _ hup]
              simp [inorder]
          | some q2 =>
              have h3 := upRight_some _ _ _ hup
              simp only [List.cons_append] at h3
              have h4 := congrArg List.length h3
              simp only [List.length_cons] at h4
              simp only [inorder, List.nil_append] at hlen
              have hlen2 : (inorder q2.r ++ rightL q2.p).length < m := by omega
              rw [ih _ hlen2, h3]
              simp [inorder]

/-- Reverse iteration from a position lists the current key followed by
everything to its left, reversed, provided enough fuel. -/
theorem collect_rev : ∀ (fuel : Nat) (q : Pos),
    (leftL q.p ++ inorder q.l).length < fuel →
    iterCollect fuel ⟨some q, true⟩ = q.k :: (leftL q.p ++ inorder q.l).reverse := by
  intro fuel
  induction fuel with
  | zero => intro q h; omega
  | succ m ih =>
      intro q hlen
      rw [show iterCollect (m + 1) ⟨some q, true⟩
          = q.k :: iterCollect m (iterNext ⟨some q, true⟩).2 by rfl]
      rw [show (iterNext ⟨some q, true⟩).2 = ⟨predGo q, true⟩ by simp [iterNext]]
      cases hl : q.l with
      | node lc ll lk lr =>
          have hpred : predGo q
              = some (maxPos lc ll lk lr (.cons .left q.c q.k q.r q.p)) := by
            simp [predGo, hl]
          obtain ⟨_, _, h3⟩ := maxPos_facts lr lc ll lk (.cons .left q.c q.k q.r q.p)
          rw [show leftL (Path.cons .left q.c q.k q.r q.p) = leftL q.p from rfl] at h3
          rw [hl] at hlen
          have h4 := congrArg List.length h3
          simp only [List.length_append, List.length_cons, List.length_nil] at h4 hlen
          have hlen2 : (leftL (maxPos lc ll lk lr (.cons .left q.c q.k q.r q.p)).p
              ++ inorder (maxPos lc ll lk lr (.cons .left q.c q.k q.r q.p)).l).length
              < m := by
            simp only [List.length_append]
            omega
          rw [hpred, ih _ hlen2, ← h3]
          simp
      | nil =>
          have hpred : predGo q = upLeft (.node q.c .nil q.k q.r) q.p := by
            simp [predGo, hl]
          rw [hpred]
          rw [hl] at hlen
          cases hup : upLeft (.node q.c .nil q.k q.r) q.p with
          | none =>
              rw [show iterCollect m ⟨none, true⟩ = [] by cases m <;> rfl]
              rw [upLeft_none _ _ hup]
              simp [inorder]
          | some q2 =>
              have h3 := upLeft_some _ _ _ hup
              have h4 := congrArg List.length h3
              simp only [List.length_append, List.length_cons, List.length_nil] at h4
              simp only [inorder, List.append_nil] at hlen
              have hlen2 : (leftL q2.p ++ inorder q2.l).length < m := by
                simp only [List.length_append]
                omega
              rw [ih _ hlen2, ← h3]
              simp [inorder]

/-! ### Claim C6: Prev from a sentinel reaches the opposite extremum -/

/-- Claim C6: on a non-empty set with sorted in-order sequence, `Prev()` on
the forward sentinel (End) lands on the global maximum and returns true,
and `Prev()` on the reverse sentinel (REnd) lands on the global minimum and
returns true. -/
theorem claim6_prev_from_sentinel (s : SetS) (hne : s.root ≠ .nil)
    (hs : List.Sorted (· < ·) (inorder s.root)) :
    (∃ it m, iterPrevS s endS = some (true, it) ∧ iterValue it = some m ∧
      m ∈ inorder s.root ∧ ∀ a ∈ inorder s.root, a ≤ m) ∧
    (∃ it m, iterPrevS s rendS = some (true, it) ∧ iterValue it = some m ∧
      m ∈ inorder s.root ∧ ∀ a ∈ inorder s.root, m ≤ a) := by
  cases hroot : s.root with
  | nil => exact absurd hroot hne
  | node c l k r =>
      constructor
      · obtain ⟨_, _, h3⟩ := maxPos_facts r c l k .root
        rw [show leftL Path.root = ([] : List Int) from rfl, List.nil_append] at h3
        refine ⟨⟨some (maxPos c l k r .root), false⟩, (maxPos c l k r .root).k,
          by simp [iterPrevS, endS, hroot, maximumGo], rfl, ?_, ?_⟩
        · rw [← h3]
          simp
        · intro a ha
          rw [hroot] at hs
          rw [← h3] at ha hs
          rw [List.Sorted, List.pairwise_append] at hs
          rcases List.mem_append.mp ha with h | h
          · exact le_of_lt (hs.2.2 a h _ (by simp))
          · rw [List.mem_singleton] at h
            exact le_of_eq h
      · obtain ⟨_, _, h3⟩ := minPos_facts l c k r .root
        rw [show rightL Path.root = ([] : List Int) from rfl, List.append_nil] at h3
        refine ⟨⟨some (minPos c l k r .root), true⟩, (minPos c l k r .root).k,
          by simp [iterPrevS, rendS, hroot, minimumGo], rfl, ?_, ?_⟩
        · rw [← h3]
          simp
        · intro a ha
          rw [hroot] at hs
          rw [← h3] at ha hs
          simp only [List.cons_append] at ha hs
          rw [List.Sorted, List.pairwise_cons] at hs
          rcases List.mem_cons.mp ha with h | h
          · exact le_of_eq h.symm
          · exact le_of_lt (hs.1 a h)

theorem claim6_witness :
    ((∃ it m, iterPrevS ⟨.node .black .nil 5 .nil, 1⟩ endS = some (true, it) ∧
        iterValue it = some m ∧
        m ∈ inorder (⟨.node .black .nil 5 .nil, 1⟩ : SetS).root ∧
        ∀ a ∈ inorder (⟨.node .black .nil 5 .nil, 1⟩ : SetS).root, a ≤ m) ∧
      (∃ it m, iterPrevS ⟨.node .black .nil 5 .nil, 1⟩ rendS = some (true, it) ∧
        iterValue it = some m ∧
        m ∈ inorder (⟨.node .black .nil 5 .nil, 1⟩ : SetS).root ∧
        ∀ a ∈ inorder (⟨.node .black .nil 5 .nil, 1⟩ : SetS).root, m ≤ a)) :=
  claim6_prev_from_sentinel ⟨.node .black .nil 5 .nil, 1⟩ (by simp)
    (List.sorted_singleton 5)

/-! ### Claim C5: round-trip iteration order -/

theorem insertAllFrom_spec : ∀ (ks : List Int) (s : SetS),
    RBInv s.root → (∀ k ∈ ks, containsGo s.root k = false) → ks.Nodup →
    ∃ s2, insertAllFrom s ks = some s2 ∧ RBInv s2.root ∧
      List.Perm (inorder s2.root) (ks ++ inorder s.root) := by
  intro ks
  induction ks with
  | nil => intro s h _ _; exact ⟨s, rfl, h, by simp⟩
  | cons k ks ih =>
      intro s hinv hcont hnd
      obtain ⟨t, heq, hinv2, hperm⟩ := (insertS_spec s k hinv).2 (hcont k (by simp))
      have hcont2 : ∀ k2 ∈ ks, containsGo t k2 = false := by
        intro k2 hk2
        rw [show (containsGo t k2 = false) ↔ ¬(containsGo t k2 = true) by simp]
        rw [containsGo_iff _ _ hinv2.2.2.2]
        intro hmem
        rcases List.mem_cons.mp (hperm.mem_iff.mp hmem) with h | h
        · subst h
          exact absurd hk2 (List.nodup_cons.mp hnd).1
        · have h5 := hcont k2 (by simp [hk2])
          rw [(containsGo_iff _ _ hinv.2.2.2).mpr h] at h5
          cases h5
      obtain ⟨s2, heq2, hinv3, hperm2⟩ :=
        ih ⟨t, s.size + 1⟩ hinv2 hcont2 (List.nodup_cons.mp hnd).2
      refine ⟨s2, ?_, hinv3, ?_⟩
      · rw [show insertAllFrom s (k :: ks)
            = insertAllFrom ⟨t, s.size + 1⟩ ks by simp [insertAllFrom, heq]]
        exact heq2
      · exact hperm2.trans ((List.Perm.append_left ks hperm).trans List.perm_middle)

theorem iterCollect_none (f : Nat) (b : Bool) : iterCollect f ⟨none, b⟩ = [] := by
  cases f <;> rfl

/-- Claim C5: inserting any list of pairwise-distinct keys into a fresh set
and iterating from `Begin()` via `Next()` until invalid yields exactly those
keys in strictly ascending order, and iterating from `RBegin()` via `Next()`
yields exactly the reverse sequence. -/
theorem claim5_roundtrip (ks : List Int) (hnd : ks.Nodup) :
    ∃ s, insertAllS ks = some s ∧
      List.Sorted (· < ·) (iterCollect ks.length (beginS s)) ∧
      List.Perm (iterCollect ks.length (beginS s)) ks ∧
      iterCollect ks.length (rbeginS s) = (iterCollect ks.length (beginS s)).reverse := by
  obtain ⟨s, heq, hinv, hperm⟩ :=
    insertAllFrom_spec ks newSetS ⟨rfl, rfl, ⟨0, rfl⟩, List.sorted_nil⟩
      (fun k _ => rfl) hnd
  rw [show inorder (newSetS.root) = ([] : List Int) from rfl, List.append_nil] at hperm
  have hlen : (inorder s.root).length = ks.length := hperm.length_eq
  have hfwd : iterCollect ks.length (beginS s) = inorder s.root := by
    cases hroot : s.root with
    | nil =>
        rw [show beginS s = ⟨none, false⟩ by simp [beginS, hroot]]
        rw [iterCollect_none]
        rfl
    | node c l k r =>
        obtain ⟨_, _, h3⟩ := minPos_facts l c k r .root
        rw [show rightL Path.root = ([] : List Int) from rfl, List.append_nil] at h3
        simp only [List.cons_append] at h3
        have h4 := congrArg List.length h3
        simp only [List.length_cons] at h4
        rw [hroot] at hlen
        have hflen : (inorder (minPos c l k r .root).r
            ++ rightL (minPos c l k r .root).p).length < ks.length := by omega
        rw [show beginS s = ⟨some (minPos c l k r .root), false⟩ by
          simp [beginS, hroot]]
        rw [collect_fwd _ _ hflen, h3]
  have hrev : iterCollect ks.length (rbeginS s) = (inorder s.root).reverse := by
    cases hroot : s.root with
    | nil =>
        rw [show rbeginS s = ⟨none, true⟩ by simp [rbeginS, hroot]]
        rw [iterCollect_none]
        rfl
    | node c l k r =>
        obtain ⟨_, _, h3⟩ := maxPos_facts r c l k .root
        rw [show leftL Path.root = ([] : List Int) from rfl, List.nil_append] at h3
        have h4 := congrArg List.length h3
        simp only [List.length_append, List.length_cons, List.length_nil] at h4
        rw [hroot] at hlen
        have hrlen : (leftL (maxPos c l k r .root).p
            ++ inorder (maxPos c l k r .root).l).length < ks.length := by
          simp only [List.length_append]
          omega
        rw [show rbeginS s = ⟨some (maxPos c l k r .root), true⟩ by
          simp [rbeginS, hroot]]
        rw [collect_rev _ _ hrlen, ← h3]
        simp
  refine ⟨s, heq, ?_, ?_, ?_⟩
  · rw [hfwd]
    exact hinv.2.2.2
  · rw [hfwd]
    exact hperm
  · rw [hrev, hfwd]

theorem claim5_witness : ∃ s, insertAllS [2, 1] = some s ∧
    List.Sorted (· < ·) (iterCollect [2, 1].length (beginS s)) ∧
    List.Perm (iterCollect [2, 1].length (beginS s)) [2, 1] ∧
    iterCollect [2, 1].length (rbeginS s)
      = (iterCollect [2, 1].length (beginS s)).reverse :=
  claim5_roundtrip [2, 1] (by decide)

/-! ### Claim C1: invariants of all reachable states -/

/-- States reachable from `NewSet` by `Insert`, `Remove` and `Clear`
(a crashing call produces no state, so it yields nothing to reach). -/
inductive Reachable : SetS → Prop where
  | empty : Reachable newSetS
  | ins {s : SetS} {k : Int} {b : Bool} {s2 : SetS} :
      Reachable s → insertS s k = some (b, s2) → Reachable s2
  | rem {s : SetS} {k : Int} {b : Bool} {s2 : SetS} :
      Reachable s → removeS s k = some (b, s2) → Reachable s2
  | clear {s : SetS} : Reachable s → Reachable (clearS s)

/-- Claim C1: every state reachable from the empty set by Insert, Remove and
Clear satisfies the four red-black invariants: black root, no red node with
a red child, equal black count on every root-to-null path (`bh?` is defined),
and strictly increasing in-order key sequence. -/
theorem claim1_reachable_invariants (s : SetS) (h : Reachable s) : RBInv s.root := by
  induction h with
  | empty => exact ⟨rfl, rfl, ⟨0, rfl⟩, List.sorted_nil⟩
  | ins hr heq ih =>
      rename_i s0 k b s2
      cases hc : containsGo s0.root k with
      | true =>
          rw [(insertS_spec s0 k ih).1 hc] at heq
          cases heq
          exact ih
      | false =>
          obtain ⟨t, heq2, hinv, _⟩ := (insertS_spec s0 k ih).2 hc
          rw [heq2] at heq
          cases heq
          exact hinv
  | rem hr heq ih =>
      rename_i s0 k b s2
      cases hc : containsGo s0.root k with
      | false =>
          rw [(removeS_spec s0 k ih).1 hc] at heq
          cases heq
          exact ih
      | true =>
          obtain ⟨t, heq2, hinv, _⟩ := (removeS_spec s0 k ih).2 hc
          rw [heq2] at heq
          cases heq
          exact hinv
  | clear hr ih => exact ⟨rfl, rfl, ⟨0, rfl⟩, List.sorted_nil⟩

theorem claim1_witness : RBInv newSetS.root :=
  claim1_reachable_invariants newSetS Reachable.empty

/-! ### Claim C10: read operations do not mutate the set -/

/-- A program configuration: the set plus one live iterator. -/
structure Cfg where
  s : SetS
  it : IterS

/-- The read-only operations of the public surface. -/
inductive ROp where
  | contains (k : Int)
  | size
  | isEmpty
  | beginOp
  | endOp
  | rbeginOp
  | rendOp
  | value
  | valid
  | next
  | prev

/-- Result value of a read operation. -/
inductive RVal where
  | b (x : Bool)
  | i (x : Int)
  | v (x : Option Int)
  | it (x : IterS)

/-- One read-operation step: each case invokes the corresponding embedded
operation; the set component is whatever the operation leaves behind (none
of the Go method bodies assigns to `s.root`, `s.size` or any node field,
which the embedding records by threading the set through unchanged), and
`Next`/`Prev` update the iterator cursor in place as the Go code does. -/
def readStep (c : Cfg) : ROp → Option (RVal × Cfg)
  | .contains k => some (.b (containsS c.s k), c)
  | .size => some (.i (sizeS c.s), c)
  | .isEmpty => some (.b (isEmptyS c.s), c)
  | .beginOp => some (.it (beginS c.s), c)
  | .endOp => some (.it endS, c)
  | .rbeginOp => some (.it (rbeginS c.s), c)
  | .rendOp => some (.it rendS, c)
  | .value => some (.v (iterValue c.it), c)
  | .valid => some (.b (iterValid c.it), c)
  | .next => some (.b (iterNext c.it).1, ⟨c.s, (iterNext c.it).2⟩)
  | .prev =>
      match iterPrevS c.s c.it with
      | none => none
      | some q => some (.b q.1, ⟨c.s, q.2⟩)

/-- Claim C10: every completed read operation (`Contains`, `Size`,
`IsEmpty`, `Begin`, `End`, `RBegin`, `REnd`, `Value`, `Valid`, `Next`,
`Prev`) leaves the set — root, node structure, colors, keys and size —
unchanged; at most the iterator cursor moves. -/
theorem claim10_reads_pure (c : Cfg) (op : ROp) (v : RVal) (c2 : Cfg)
    (h : readStep c op = some (v, c2)) : c2.s = c.s := by
  cases op <;> simp only [readStep] at h
  case contains k => cases h; rfl
  case size => cases h; rfl
  case isEmpty => cases h; rfl
  case beginOp => cases h; rfl
  case endOp => cases h; rfl
  case rbeginOp => cases h; rfl
  case rendOp => cases h; rfl
  case value => cases h; rfl
  case valid => cases h; rfl
  case next => cases h; rfl
  case prev =>
      cases hq : iterPrevS c.s c.it with
      | none => rw [hq] at h; cases h
      | some q => rw [hq] at h; cases h; rfl

theorem claim10_witness :
    (⟨newSetS, endS⟩ : Cfg).s = (⟨newSetS, endS⟩ : Cfg).s :=
  claim10_reads_pure ⟨newSetS, endS⟩ .size _ _ rfl

end RB
